import Mathlib

/-!
# Verification of the diagonal-Sudoku solver (`solution.py`)

A shallow embedding of the solver class in `src/solution.py`.

Conventions of the embedding:

* Cells ("boxes") are the two-character strings `"A1"`, ..., `"I9"`, exactly as
  in the source.  Candidate values are `List Char` (the source uses Python
  strings such as `"123456789"`).
* The board dictionary `values` is modelled as a total function
  `String → List Char`.  All reads and writes performed by the source touch
  only the 81 box keys, so the behaviour on other strings is irrelevant; the
  decoder maps unknown keys to `[]`.
* The instance attribute `self.assignments` (the Assignment Log) is modelled
  as explicit state: every function that may append to it takes and returns a
  `Board × Log` pair.  `solve` receives the log that the (class-level)
  attribute holds at call time and returns the final log; the source never
  resets the attribute.
* Python's `while` loop in `reduce_puzzle` and the recursion in `search` are
  modelled with explicit fuel, with a distinguished `fuelOut` result that the
  source cannot produce; sufficiency theorems below show the chosen fuel never
  runs out, which is exactly the termination argument for the source.
* `search` returns a board, Python `False` (line 162), or Python `None` (the
  implicit value when the `for` loop at line 168 falls off the end).  These
  three outcomes are the constructors `board`, `pyFalse` and `pyNone` of `SR`.
* `str.replace(d, '')` is modelled by `replaceDel`.  In the source the pattern
  `d` is always a single solved digit or (in `eliminate`, after a solved cell
  has been emptied by a contradiction) the empty string; Python's
  `s.replace('', '')` is the identity, and `replaceDel` mirrors both cases.
* Python's `set`-typed `peers` has unspecified iteration order; the embedding
  fixes a deterministic order (`List.dedup` of the concatenated units).  No
  theorem below depends on this order beyond determinism.
* `solve` also calls `self.visualize()`, which only reads the log and swallows
  all errors; it has no effect on the returned value or the log and is not
  modelled.
-/

namespace SudokuPy

/-- `rows = 'ABCDEFGHI'` (line 3). -/
def rows : List Char := "ABCDEFGHI".data

/-- `cols = '123456789'` (line 4). -/
def cols : List Char := "123456789".data

/-- `cross(A, B)` (line 74): all two-character strings `a+b`. -/
def cross (A B : List Char) : List String :=
  A.flatMap (fun a => B.map (fun b => String.mk [a, b]))

/-- `self.boxes = self.cross(self.rows, self.cols)` (line 13). -/
def boxes : List String := cross rows cols

/-- `row_units` (line 14). -/
def row_units : List (List String) := rows.map (fun r => cross [r] cols)

/-- `column_units` (line 15). -/
def column_units : List (List String) := cols.map (fun c => cross rows [c])

/-- `square_units` (line 16); the comprehension order is `rs` outer, `cs` inner. -/
def square_units : List (List String) :=
  ["ABC", "DEF", "GHI"].flatMap (fun rs =>
    ["123", "456", "789"].map (fun cs => cross rs.data cs.data))

/-- `diag_units` (lines 17–20): the main diagonal `zip(rows, cols)` and the
anti-diagonal `zip(rows, reversed(cols))`. -/
def diag_units : List (List String) :=
  [List.zipWith (fun r c => String.mk [r, c]) rows cols,
   List.zipWith (fun r c => String.mk [r, c]) rows cols.reverse]

/-- `self.unitlist` (line 22). -/
def unitlist : List (List String) :=
  row_units ++ column_units ++ square_units ++ diag_units

/-- `self.units` (line 23): the units containing a given box, in `unitlist`
order.  Computed once in `__init__`; modelled as a pure function. -/
def units (s : String) : List (List String) :=
  unitlist.filter (fun u => s ∈ u)

/-- `self.peers` (line 24): `set(sum(self.units[s], [])) - set([s])`.  The
Python value is an unordered set; the embedding uses a deduplicated list. -/
def peers (s : String) : List String :=
  ((units s).flatten.dedup).filter (fun p => p ≠ s)

/-- A board maps each box name to its candidate digits (a Python string). -/
abbrev Board := String → List Char

/-- The assignment log: a list of board snapshots (`self.assignments`). -/
abbrev Log := List Board

/-- The mutable state threaded through the solver: the `values` dictionary
plus the assignment log. -/
abbrev SSt := Board × Log

/-- Strictness device: run the iterated loops of the source as tail
recursions that bring the state to weak head normal form at every step (by
matching on the log's list constructor), so that concrete runs evaluate
iteratively instead of building deeply nested thunks.  `runList f l st` is
exactly `l.foldl f st` (`runList_eq_foldl`), i.e. a `for` loop over `l`
threading the mutable state. -/
def runList (f : SSt → α → SSt) : List α → SSt → SSt
  | [], st => st
  | a :: l, st =>
    match f st a with
    | (v, []) => runList f l (v, [])
    | (v, e :: rest) => runList f l (v, e :: rest)

/-- `s.replace(d, '')` for the patterns that occur in the source: a
single-character pattern removes every occurrence of that character, and the
empty pattern (Python `s.replace('', '')`) is the identity.  Multi-character
patterns never arise: `eliminate` reads a cell that was a singleton at entry
(values only ever shrink), and `naked_twins` always passes one character. -/
def replaceDel (s : List Char) (d : List Char) : List Char :=
  match d with
  | [c] => s.filter (fun x => x ≠ c)
  | _ => s

/-- `assign_value` (lines 26–39): write `value` into `box`; if that changes
the board and produces a singleton, append a snapshot of the updated board. -/
def assign_value (st : SSt) (box : String) (value : List Char) : SSt :=
  if st.1 box = value then st
  else
    let v' : Board := fun b => if b = box then value else st.1 b
    if value.length = 1 then (v', st.2 ++ [v']) else (v', st.2)

/-- The body of `eliminate`'s outer loop (lines 119–122): read the (current)
digit of a solved box and remove it from every peer. -/
def elimBox (st : SSt) (box : String) : SSt :=
  let digit := st.1 box
  runList
    (fun st2 peer => assign_value st2 peer (replaceDel (st2.1 peer) digit))
    (peers box) st

/-- `eliminate` (lines 112–123): for every box solved at entry, remove its
digit from all its peers. -/
def eliminate (st : SSt) : SSt :=
  runList elimBox (boxes.filter (fun b => (st.1 b).length == 1)) st

/-- The `twins` dictionary built in `naked_twins` (lines 53–59): group the
boxes of a unit by their exact candidate string, preserving first-insertion
order of keys and insertion order within each group. -/
def insertTwin (acc : List (List Char × List String)) (iv : List Char)
    (ib : String) : List (List Char × List String) :=
  if acc.any (fun kv => kv.1 == iv) then
    acc.map (fun kv => if kv.1 == iv then (kv.1, kv.2 ++ [ib]) else kv)
  else acc ++ [(iv, [ib])]

/-- One unit scan of `naked_twins` (lines 52–70): build the value groups,
keep those whose size equals the length of the shared candidate string (and
is `> 1`), and remove each shared digit from the other boxes of the unit. -/
def nakedUnit (st : SSt) (unit : List String) : SSt :=
  let twins := unit.foldl (fun acc ib => insertTwin acc (st.1 ib) ib) []
  let naked := twins.filter (fun kv => kv.2.length > 1 && kv.1.length == kv.2.length)
  runList
    (fun st4 kv =>
      runList
        (fun st5 value =>
          let toElim := unit.filter (fun ub => !(kv.2.contains ub))
          runList
            (fun st6 btx =>
              if value ∈ st6.1 btx then
                assign_value st6 btx (replaceDel (st6.1 btx) [value])
              else st6) toElim st5) kv.1 st4) naked st

/-- `naked_twins` (lines 41–72): for every box (in dictionary order, i.e.
`boxes` order) and every unit containing it, run one unit scan. -/
def naked_twins (st : SSt) : SSt :=
  runList (fun st2 box => runList nakedUnit (units box) st2) boxes st

/-- `only_choice` (lines 125–136): for every unit and digit, if exactly one
box of the unit still holds the digit, assign it there. -/
def only_choice (st : SSt) : SSt :=
  runList
    (fun st2 unit =>
      runList
        (fun st3 digit =>
          let dplaces := unit.filter (fun box => digit ∈ st3.1 box)
          match dplaces with
          | [b] => assign_value st3 b [digit]
          | _ => st3) cols st2) unitlist st

/-- `len([box for box in values.keys() if len(values[box]) == 1])`
(lines 148 and 152). -/
def solvedCount (v : Board) : Nat :=
  (boxes.filter (fun b => (v b).length == 1)).length

/-- `len([box for box in values.keys() if len(values[box]) == 0])`
(line 154), as a Boolean. -/
def hasEmpty (v : Board) : Bool :=
  boxes.any (fun b => (v b).length == 0)

/-- Total number of candidate characters on the board; the variant that
proves the `while` loop of `reduce_puzzle` terminates. -/
def sumLen (v : Board) : Nat :=
  (boxes.map (fun b => (v b).length)).sum

/-- Number of boxes with two or more candidates (the unsolved cells). -/
def unsolvedCount (v : Board) : Nat :=
  (boxes.filter (fun b => 1 < (v b).length)).length

/-- `all(len(values[s]) == 1 for s in self.boxes)` (line 163). -/
def allSingleton (v : Board) : Bool :=
  boxes.all (fun b => (v b).length == 1)

/-- One pass of the `while` loop body (lines 149–151):
`eliminate`, then `naked_twins`, then `only_choice`. -/
def stepSt (st : SSt) : SSt := only_choice (naked_twins (eliminate st))

/-- Result of `reduce_puzzle`: a board, Python `False`, or fuel exhaustion
(which theorem `reduceFuel_no_fuelOut` shows is unreachable). -/
inductive RRes where
  | vals (v : Board)
  | rfalse
  | rfuel

/-- The `while not stalled` loop of `reduce_puzzle` (lines 146–156) with
explicit fuel.  Each iteration applies the three rules, then returns `False`
if some box became empty, then exits if the solved count did not change. -/
def reduceFuel : Nat → SSt → RRes × Log
  | 0, st => (RRes.rfuel, st.2)
  | n + 1, st =>
    let before := solvedCount st.1
    let st' := stepSt st
    if hasEmpty st'.1 then (RRes.rfalse, st'.2)
    else if solvedCount st'.1 == before then (RRes.vals st'.1, st'.2)
    else reduceFuel n st'

/-- `reduce_puzzle` (lines 138–156).  The fuel `sumLen + 1` is sufficient
because every non-final pass strictly shrinks the board
(`reduceFuel_no_fuelOut`). -/
def reduce_puzzle (st : SSt) : RRes × Log :=
  reduceFuel (sumLen st.1 + 1) st

/-- Python's `<` on strings: lexicographic comparison of the code points,
with a proper prefix smaller than the longer string. -/
def strLtB : List Char → List Char → Bool
  | _, [] => false
  | [], _ :: _ => true
  | a :: as, b :: bs =>
    if a.toNat < b.toNat then true
    else if b.toNat < a.toNat then false
    else strLtB as bs

/-- Lexicographic order on the pairs `(len(values[s]), s)` compared by
Python's `min` (line 166): first by count, then by the string. -/
def pairLt (p q : Nat × String) : Prop :=
  p.1 < q.1 ∨ (p.1 = q.1 ∧ strLtB p.2.data q.2.data = true)

instance (p q : Nat × String) : Decidable (pairLt p q) := by
  unfold pairLt; infer_instance

/-- Minimum of a nonempty list of pairs under `pairLt`. -/
def foldMin (c : Nat × String) (l : List (Nat × String)) : Nat × String :=
  l.foldl (fun m p => if pairLt p m then p else m) c

/-- `min((len(values[s]), s) for s in self.boxes if len(values[s]) > 1)`
(line 166).  Python raises on an empty generator; in `search` the generator
is never empty, and the default is arbitrary. -/
def minChoice (r : Board) : Nat × String :=
  match (boxes.filter (fun s => 1 < (r s).length)).map
      (fun s => ((r s).length, s)) with
  | [] => (0, "")
  | c :: rest => foldMin c rest

/-- The branch board of `search` (lines 169–170): `new_sudoku = values.copy();
new_sudoku[s] = value`.  A direct dictionary write — not `assign_value` — so
the log is untouched. -/
def forced (r : Board) (s : String) (c : Char) : Board :=
  fun b => if b = s then [c] else r b

/-- Result of `search`: a solved board, Python `False`, Python `None`
(falling off the `for` loop, lines 168–173), or fuel exhaustion (unreachable
for sufficient fuel, theorem `searchFuel_no_fuelOut`). -/
inductive SR where
  | board (v : Board)
  | pyFalse
  | pyNone
  | fuelOut

/-- The `for value in values[s]` loop of `search` (lines 168–173): try each
candidate in string order; `if attempt: return attempt` returns the first
truthy (board) result; fall off the end with `None`.  `fuelOut` aborts. -/
def tryValues (f : SSt → SR × Log) (r : Board) (s : String) :
    List Char → Log → SR × Log
  | [], log => (SR.pyNone, log)
  | c :: cs, log =>
    match f (forced r s c, log) with
    | (SR.board b, log2) => (SR.board b, log2)
    | (SR.fuelOut, log2) => (SR.fuelOut, log2)
    | (_, log2) => tryValues f r s cs log2

/-- The body of `search` after `reduce_puzzle` has run (lines 161–173):
dispatch on the propagation result, return the board when solved, otherwise
branch on the minimum-candidates cell. -/
def searchStep (f : SSt → SR × Log) (pr : RRes × Log) : SR × Log :=
  match pr with
  | (RRes.rfalse, log) => (SR.pyFalse, log)
  | (RRes.rfuel, log) => (SR.fuelOut, log)
  | (RRes.vals r, log) =>
    if allSingleton r then (SR.board r, log)
    else
      let ms := minChoice r
      tryValues f r ms.2 (r ms.2) log

/-- `search` (lines 158–173) with explicit recursion fuel. -/
def searchFuel : Nat → SSt → SR × Log
  | 0, st => (SR.fuelOut, st.2)
  | n + 1, st => searchStep (searchFuel n) (reduce_puzzle st)

/-- `search` with the canonical fuel `82`: the recursion depth is bounded by
the number of unsolved cells (at most 81), see `searchFuel_no_fuelOut`. -/
def search (st : SSt) : SR × Log := searchFuel 82 st

/-- `grid_values` (lines 78–93): `assert len(grid) == 81`, then zip the boxes
with the characters, replacing `'.'` by the full candidate string.  The
failed assertion is modelled as `none`.  Keys outside the dictionary map to
`[]` (a lookup the source never performs). -/
def grid_values (grid : String) : Option Board :=
  if grid.length = 81 then
    some (fun b =>
      match (boxes.zip grid.data).lookup b with
      | some c => if c = '.' then cols else [c]
      | none => [])
  else none

/-- `solve` (lines 175–187): decode the grid and run `search`.  The log
argument is the content of the class attribute `assignments` at call time;
the source never clears it. -/
def solve (grid : String) (log : Log) : Option (SR × Log) :=
  (grid_values grid).map (fun v => search (v, log))

/-- The decoded board of a valid grid (`none` case never used below). -/
def decodeB (grid : String) : Board :=
  (grid_values grid).getD (fun _ => [])

/-- The result of `solve` on a well-formed grid, for stating concrete facts. -/
def solveRes (grid : String) (log : Log) : SR × Log :=
  (solve grid log).getD (SR.fuelOut, [])

/-- Pointwise equality of two boards on the 81 boxes — Python `dict`
equality for the dictionaries the solver builds. -/
def boardEq (v w : Board) : Bool :=
  boxes.all (fun b => v b == w b)

/-- `l₁` is an initial segment of `l₂`, comparing snapshots with `boardEq`. -/
def logPrefixB (l₁ l₂ : Log) : Bool :=
  (decide (l₁.length ≤ l₂.length)) && ((l₁.zip l₂).all (fun p => boardEq p.1 p.2))

/-! ### Concrete inputs used by the claim theorems -/

/-- The board whose every cell holds the two candidates `"12"`: stable under
propagation, not solved, and every search branch is contradictory, so
`search` exhausts its top-level candidates. -/
def v12 : Board := fun _ => ['1', '2']

/-- The board `search` builds for the first branch on `v12`: cell `A1` forced
to `'1'` (lines 169–170), every other cell still `"12"`. -/
def branchB : Board := fun b => if b = "A1" then ['1'] else ['1', '2']

/-- A directly contradictory board: `A1` and `A2` both solved to `'5'`. -/
def vconf : Board :=
  fun b => if b = "A1" then ['5'] else if b = "A2" then ['5'] else cols

/-- A stalling board on which `reduce_puzzle` is not idempotent: the naked
pair `{1,2}` at `E9`,`I9` in column 9 is exploited while the sweep processes
box `A9`, shrinking `A9` to `"34"` and creating the naked pair `{3,4}` with
`A5` in row A — after every scan of row A has already happened. -/
def wC7 : Board := fun b =>
  if b = "A5" then ['3', '4']
  else if b = "A9" then ['1', '2', '3', '4']
  else if b = "E9" then ['1', '2']
  else if b = "I9" then ['1', '2']
  else cols

/-- Grid whose row A forces the singleton `A9 = '9'` (one log append) and
whose `D1 = D2 = '5'` duplication empties a cell in the first pass. -/
def g10 : String :=
  "12345678...................55...................................................."

/-- A completed diagonal Sudoku (all 29 units valid), used as a cheap solved
input: propagation stalls immediately and `search` returns the decoded board. -/
def gsol : String :=
  "254367198376198524981245367592486731637951842418723956829574613743619285165832479"

/-- The empty puzzle: 81 dots. -/
def dots81 : String := String.mk (List.replicate 81 '.')

/-- A malformed grid: 80 dots. -/
def dots80 : String := String.mk (List.replicate 80 '.')

/-- The `search` run on the all-`"12"` board with an empty log. -/
def v12run : SR × Log := searchFuel 82 (v12, [])

/-- `reduce_puzzle` on the all-`"12"` board. -/
def v12red : RRes × Log := reduce_puzzle (v12, [])

/-- First and second `reduce_puzzle` runs for the idempotence counterexample. -/
def wC7red : RRes × Log := reduce_puzzle (wC7, [])

/-- The board returned by `reduce_puzzle (wC7, [])` (default never used). -/
def wC7board : Board :=
  match wC7red with
  | (RRes.vals v, _) => v
  | _ => fun _ => []

/-- `reduce_puzzle` run again on its own output. -/
def wC7red2 : RRes × Log := reduce_puzzle (wC7board, [])

/-- The board returned by the second run (default never used). -/
def wC7board2 : Board :=
  match wC7red2 with
  | (RRes.vals v, _) => v
  | _ => fun _ => []

/-- First `solve` call on `g10`, starting from an empty assignment log. -/
def g10run1 : SR × Log := solveRes g10 []

/-- Second `solve` call on `g10`, starting from the log the first call left
in the class attribute. -/
def g10run2 : SR × Log := solveRes g10 g10run1.2

/-! ### Predicates used by the development -/

/-- The cells eligible for branching: `len(values[s]) > 1` (line 166). -/
def candsOf (r : Board) : List String :=
  boxes.filter (fun s => 1 < (r s).length)

def PtSub (w v : Board) : Prop := ∀ b, List.Sublist (w b) (v b)

def logLE (l1 l2 : Log) : Prop := ∃ t, l2 = l1 ++ t

def Good (v : Board) : Prop := ∀ x, List.Sublist (v x) cols

def BoardSolvedValid (v : Board) : Prop :=
  (∀ b ∈ boxes, (v b).length = 1) ∧
  ∀ u ∈ unitlist, ∀ d ∈ cols, (u.filter (fun b => v b = [d])).length = 1

/-- A grid string as specified by the interface: digits and dots only. -/
def GridChars (g : String) : Prop := ∀ c ∈ g.data, c ∈ cols ∨ c = '.'

/-- Number of diagonals through a cell (0, 1, or 2). -/
def diagCount (s : String) : Nat := (diag_units.filter (fun u => s ∈ u)).length

instance (g : String) : Decidable (GridChars g) := by
  unfold GridChars; infer_instance

set_option maxRecDepth 8000

-- HEAVY_BEGIN
/-! ### Evaluated facts about the concrete runs (each run is evaluated once
here and the claim theorems below only reuse these lemmas). -/

/-- One pass of propagation leaves the all-`"12"` board untouched. -/
theorem v12_step : stepSt (v12, []) = (v12, []) := by rfl

/-- `reduce_puzzle` stalls immediately on the all-`"12"` board: no solved
cells before or after, no empties, no log appends. -/
theorem v12red_eq : reduce_puzzle (v12, []) = (RRes.vals v12, []) := by rfl

/-- The full `search` run on the all-`"12"` board: the top level branches on
`A1`, both branches are refuted, the run falls off the loop with Python
`None`, and no snapshot in the final log equals the branch board `branchB`
(the board at the moment `A1` was forced to `'1'`). -/
theorem v12run_facts :
    v12run.1 = SR.pyNone ∧
    (v12run.2.all (fun e => !(boardEq e branchB))) = true ∧
    v12run.2.length = 110 := by
  refine ⟨?_, ?_, ?_⟩ <;> rfl

/-- A direct contradiction (`A1 = A2 = '5'`) makes `search` return Python
`False` (line 162). -/
theorem vconf_false : (searchFuel 82 (vconf, [])).1 = SR.pyFalse := by rfl

/-- The idempotence counterexample, evaluated: `reduce_puzzle` on `wC7`
returns the board `wC7board`; running `reduce_puzzle` again on that very
board returns a different board (row A loses candidates `3` and `4`). -/
theorem wC7_facts :
    wC7red.1 = RRes.vals wC7board ∧
    wC7red2.1 = RRes.vals wC7board2 ∧
    boardEq wC7board2 wC7board = false := by
  refine ⟨?_, ?_, ?_⟩ <;> rfl

/-- Two consecutive `solve` calls on `g10`: the first appends one snapshot
(`A9` solved to `'9'`) and fails; the second starts from the log the first
left behind, so its final log still starts with the first call's snapshot
and has grown to two entries. -/
theorem g10_facts :
    solve g10 [] = some g10run1 ∧
    g10run1.1 = SR.pyFalse ∧
    g10run1.2.length = 1 ∧
    solve g10 g10run1.2 = some g10run2 ∧
    g10run2.1 = SR.pyFalse ∧
    g10run2.2.length = 2 ∧
    logPrefixB g10run1.2 g10run2.2 = true := by
  refine ⟨?_, ?_, ?_, ?_, ?_, ?_, ?_⟩ <;> rfl

/-- Solving an already-solved valid diagonal grid: propagation is a no-op,
`search` returns the decoded board itself, and the log stays empty. -/
theorem gsol_run : solve gsol [] = some (SR.board (decodeB gsol), []) := by rfl
-- HEAVY_END

/-! ### `runList` is `List.foldl` -/

theorem runList_eq_foldl (f : SSt → α → SSt) (l : List α) :
    ∀ st : SSt, runList f l st = l.foldl f st := by
  induction l with
  | nil => intro st; rfl
  | cons a l ih =>
    intro st
    show (match f st a with
      | (v, []) => runList f l (v, [])
      | (v, e :: rest) => runList f l (v, e :: rest)) = (a :: l).foldl f st
    rw [List.foldl_cons]
    rcases h : f st a with ⟨v, lg⟩
    cases lg with
    | nil => exact ih (v, [])
    | cons e rest => exact ih (v, e :: rest)

theorem eliminate_eq (st : SSt) :
    eliminate st =
      (boxes.filter (fun b => (st.1 b).length == 1)).foldl elimBox st :=
  runList_eq_foldl _ _ st

theorem elimBox_eq (st : SSt) (box : String) :
    elimBox st box =
      (peers box).foldl
        (fun st2 peer => assign_value st2 peer (replaceDel (st2.1 peer) (st.1 box)))
        st :=
  runList_eq_foldl _ _ st

theorem naked_twins_eq (st : SSt) :
    naked_twins st =
      boxes.foldl (fun st2 box => runList nakedUnit (units box) st2) st :=
  runList_eq_foldl _ _ st

theorem only_choice_eq (st : SSt) :
    only_choice st =
      unitlist.foldl
        (fun st2 unit =>
          runList
            (fun st3 digit =>
              let dplaces := unit.filter (fun box => digit ∈ st3.1 box)
              match dplaces with
              | [b] => assign_value st3 b [digit]
              | _ => st3) cols st2) st :=
  runList_eq_foldl _ _ st

/-! ### The lexicographic order used by `min` -/

theorem chr_eq_of_toNat_eq {a b : Char} (h : a.toNat = b.toNat) : a = b := by
  have ha := Char.ofNat_toNat a
  rw [h, Char.ofNat_toNat] at ha
  exact ha.symm

theorem strLtB_irrefl : ∀ l : List Char, strLtB l l = false := by
  intro l
  induction l with
  | nil => rfl
  | cons a l ih => simp [strLtB, ih]

theorem strLtB_cons (a b : Char) (as bs : List Char) :
    strLtB (a :: as) (b :: bs) =
      if a.toNat < b.toNat then true
      else if b.toNat < a.toNat then false
      else strLtB as bs := rfl

theorem strLtB_trans :
    ∀ {l1 l2 l3 : List Char}, strLtB l1 l2 = true → strLtB l2 l3 = true →
      strLtB l1 l3 = true := by
  intro l1
  induction l1 with
  | nil =>
    intro l2 l3 h12 h23
    cases l3 with
    | nil =>
      cases l2 with
      | nil => exact h12
      | cons b bs => exact h23
    | cons c cs => rfl
  | cons a as ih =>
    intro l2 l3 h12 h23
    cases l2 with
    | nil => exact Bool.noConfusion h12
    | cons b bs =>
      cases l3 with
      | nil => exact Bool.noConfusion h23
      | cons c cs =>
        rw [strLtB_cons] at h12 h23 ⊢
        rcases Nat.lt_trichotomy a.toNat b.toNat with hab | hab | hab
        · rcases Nat.lt_trichotomy b.toNat c.toNat with hbc | hbc | hbc
          · rw [if_pos (Nat.lt_trans hab hbc)]
          · rw [if_pos (hbc ▸ hab)]
          · rw [if_neg (by omega), if_pos hbc] at h23
            exact Bool.noConfusion h23
        · rw [if_neg (by omega), if_neg (by omega)] at h12
          rcases Nat.lt_trichotomy b.toNat c.toNat with hbc | hbc | hbc
          · rw [if_pos (by omega)]
          · rw [if_neg (by omega), if_neg (by omega)] at h23
            rw [if_neg (by omega), if_neg (by omega)]
            exact ih h12 h23
          · rw [if_neg (by omega), if_pos hbc] at h23
            exact Bool.noConfusion h23
        · rw [if_neg (by omega), if_pos hab] at h12
          exact Bool.noConfusion h12

theorem strLtB_connect :
    ∀ {l1 l2 : List Char}, strLtB l1 l2 = false → strLtB l2 l1 = false →
      l1 = l2 := by
  intro l1
  induction l1 with
  | nil =>
    intro l2 h12 _
    cases l2 with
    | nil => rfl
    | cons b bs => exact Bool.noConfusion h12
  | cons a as ih =>
    intro l2 h12 h21
    cases l2 with
    | nil => exact Bool.noConfusion h21
    | cons b bs =>
      rw [strLtB_cons] at h12 h21
      rcases Nat.lt_trichotomy a.toNat b.toNat with hab | hab | hab
      · rw [if_pos hab] at h12
        exact Bool.noConfusion h12
      · rw [if_neg (by omega), if_neg (by omega)] at h12
        rw [if_neg (by omega), if_neg (by omega)] at h21
        rw [chr_eq_of_toNat_eq hab, ih h12 h21]
      · rw [if_pos hab] at h21
        exact Bool.noConfusion h21

theorem str_eq_of_data_eq {s t : String} (h : s.data = t.data) : s = t := by
  cases s
  cases t
  exact congrArg String.mk h

theorem pairLt_irrefl (p : Nat × String) : ¬ pairLt p p := by
  intro h
  rcases h with h | ⟨_, h⟩
  · exact Nat.lt_irrefl _ h
  · rw [strLtB_irrefl] at h; cases h

theorem pairLt_trans {p q r : Nat × String} (h1 : pairLt p q) (h2 : pairLt q r) :
    pairLt p r := by
  rcases h1 with h1 | ⟨e1, h1⟩ <;> rcases h2 with h2 | ⟨e2, h2⟩
  · exact Or.inl (Nat.lt_trans h1 h2)
  · exact Or.inl (e2 ▸ h1)
  · exact Or.inl (e1 ▸ h2)
  · exact Or.inr ⟨e1.trans e2, strLtB_trans h1 h2⟩

theorem pairLt_connect {p q : Nat × String} (h1 : ¬ pairLt p q)
    (h2 : ¬ pairLt q p) : p = q := by
  have hn1 : ¬ p.1 < q.1 := fun h => h1 (Or.inl h)
  have hn2 : ¬ q.1 < p.1 := fun h => h2 (Or.inl h)
  have he : p.1 = q.1 := by omega
  have hs1 : strLtB p.2.data q.2.data = false := by
    cases h : strLtB p.2.data q.2.data
    · rfl
    · exact absurd (Or.inr ⟨he, h⟩) h1
  have hs2 : strLtB q.2.data p.2.data = false := by
    cases h : strLtB q.2.data p.2.data
    · rfl
    · exact absurd (Or.inr ⟨he.symm, h⟩) h2
  have := str_eq_of_data_eq (strLtB_connect hs1 hs2)
  calc p = (p.1, p.2) := rfl
    _ = (q.1, q.2) := by rw [he, this]
    _ = q := rfl

/-! ### Specification of `min((len(values[s]), s) ...)` -/

theorem foldMin_cons (c p : Nat × String) (l : List (Nat × String)) :
    foldMin c (p :: l) = foldMin (if pairLt p c then p else c) l := rfl

theorem foldMin_mem (l : List (Nat × String)) :
    ∀ c : Nat × String, foldMin c l = c ∨ foldMin c l ∈ l := by
  induction l with
  | nil => intro c; exact Or.inl rfl
  | cons p l ih =>
    intro c
    rw [foldMin_cons]
    by_cases h : pairLt p c
    · rw [if_pos h]
      rcases ih p with h' | h'
      · exact Or.inr (by rw [h']; exact List.mem_cons_self p l)
      · exact Or.inr (List.mem_cons_of_mem p h')
    · rw [if_neg h]
      rcases ih c with h' | h'
      · exact Or.inl h'
      · exact Or.inr (List.mem_cons_of_mem p h')

theorem foldMin_min (l : List (Nat × String)) :
    ∀ c : Nat × String, ∀ x, x = c ∨ x ∈ l → ¬ pairLt x (foldMin c l) := by
  induction l with
  | nil =>
    intro c x hx
    rcases hx with rfl | hx
    · exact pairLt_irrefl x
    · cases hx
  | cons p l ih =>
    intro c x hx
    rw [foldMin_cons]
    by_cases h : pairLt p c
    · rw [if_pos h]
      rcases hx with heq | hx
      · rw [heq]
        intro hlt
        exact ih p p (Or.inl rfl) (pairLt_trans h hlt)
      · rcases List.mem_cons.mp hx with heq | hx'
        · rw [heq]
          exact ih p p (Or.inl rfl)
        · exact ih p x (Or.inr hx')
    · rw [if_neg h]
      rcases hx with heq | hx
      · rw [heq]
        exact ih c c (Or.inl rfl)
      · rcases List.mem_cons.mp hx with heq | hx'
        · rw [heq]
          intro hlt
          by_cases hcx : pairLt c p
          · exact ih c c (Or.inl rfl) (pairLt_trans hcx hlt)
          · have hpc : p = c := pairLt_connect h hcx
            exact ih c c (Or.inl rfl) (hpc ▸ hlt)
        · exact ih c x (Or.inr hx')


theorem mem_candsOf {r : Board} {s : String} :
    s ∈ candsOf r ↔ s ∈ boxes ∧ 1 < (r s).length := by
  unfold candsOf
  rw [List.mem_filter]
  simp

theorem minChoice_eq (r : Board) :
    minChoice r =
      match (candsOf r).map (fun s => ((r s).length, s)) with
      | [] => (0, "")
      | c :: rest => foldMin c rest := rfl

/-- Specification of line 166: the chosen pair is one of the candidate pairs
and is `pairLt`-minimal among them (Python's `min` over the tuples). -/
theorem minChoice_spec (r : Board) (hne : candsOf r ≠ []) :
    ((minChoice r).2 ∈ candsOf r ∧ (r (minChoice r).2).length = (minChoice r).1) ∧
    ∀ t ∈ candsOf r, ¬ pairLt ((r t).length, t) (minChoice r) := by
  cases hc : candsOf r with
  | nil => exact absurd hc hne
  | cons s0 rest =>
    have hm : minChoice r =
        foldMin ((r s0).length, s0) (rest.map (fun s => ((r s).length, s))) := by
      rw [minChoice_eq, hc, List.map_cons]
    refine ⟨?_, ?_⟩
    · rcases foldMin_mem (rest.map (fun s => ((r s).length, s)))
        ((r s0).length, s0) with h | h
      · have hmc : minChoice r = ((r s0).length, s0) := by rw [hm, h]
        refine ⟨?_, ?_⟩
        · rw [hmc]
          exact List.mem_cons_self s0 rest
        · rw [hmc]
      · have hmc : minChoice r ∈ rest.map (fun s => ((r s).length, s)) := by
          rw [hm]; exact h
        rcases List.mem_map.mp hmc with ⟨s, hs, hset⟩
        refine ⟨?_, ?_⟩
        · rw [← hset]
          exact List.mem_cons_of_mem s0 hs
        · rw [← hset]
    · intro t ht
      rw [hm]
      rcases List.mem_cons.mp ht with heq | ht'
      · rw [heq]
        exact foldMin_min _ _ _ (Or.inl rfl)
      · exact foldMin_min _ _ _
          (Or.inr (List.mem_map_of_mem (fun s => ((r s).length, s)) ht'))

/-! ### Topology facts -/

theorem boxes_nodup : boxes.Nodup := by decide

theorem boxes_length : boxes.length = 81 := by decide

theorem cols_nodup : cols.Nodup := by decide

theorem cols_sorted : cols.Pairwise (fun a b => a.toNat < b.toNat) := by decide

theorem unitlist_facts :
    ∀ u ∈ unitlist, u.length = 9 ∧ u.Nodup ∧ ∀ b ∈ u, b ∈ boxes := by decide

theorem mem_units {s : String} {u : List String} :
    u ∈ units s ↔ u ∈ unitlist ∧ s ∈ u := by
  unfold units
  rw [List.mem_filter]
  simp

theorem mem_peers {a b : String} :
    b ∈ peers a ↔ b ≠ a ∧ ∃ u ∈ unitlist, a ∈ u ∧ b ∈ u := by
  unfold peers
  rw [List.mem_filter, List.mem_dedup, List.mem_flatten]
  constructor
  · rintro ⟨⟨u, hu, hbu⟩, hne⟩
    rcases mem_units.mp hu with ⟨hul, hau⟩
    exact ⟨by simpa using hne, u, hul, hau, hbu⟩
  · rintro ⟨hne, u, hul, hau, hbu⟩
    exact ⟨⟨u, mem_units.mpr ⟨hul, hau⟩, hbu⟩, by simpa using hne⟩

/-- Two distinct cells of one unit are peers of each other. -/
theorem peers_of_same_unit {u : List String} {a b : String}
    (hu : u ∈ unitlist) (ha : a ∈ u) (hb : b ∈ u) (hne : b ≠ a) :
    b ∈ peers a :=
  mem_peers.mpr ⟨hne, u, hu, ha, hb⟩

/-! ### Shrinking: every write only removes candidates -/

/-- `PtSub w v`: every cell of `w` holds a sublist (an in-order selection) of
its candidates in `v`. -/

theorem ptSub_refl (v : Board) : PtSub v v := fun _ => List.Sublist.refl _

theorem ptSub_trans {w v u : Board} (h1 : PtSub w v) (h2 : PtSub v u) :
    PtSub w u := fun b => (h1 b).trans (h2 b)

/-- `logLE l1 l2`: the log `l2` extends `l1` (append-only growth). -/

theorem logLE_refl (l : Log) : logLE l l := ⟨[], (List.append_nil l).symm⟩

theorem logLE_trans {l1 l2 l3 : Log} (h1 : logLE l1 l2) (h2 : logLE l2 l3) :
    logLE l1 l3 := by
  rcases h1 with ⟨t1, rfl⟩
  rcases h2 with ⟨t2, rfl⟩
  exact ⟨t1 ++ t2, List.append_assoc l1 t1 t2⟩

theorem replaceDel_sublist (s d : List Char) :
    List.Sublist (replaceDel s d) s := by
  rcases d with _ | ⟨c, _ | ⟨c2, cs⟩⟩
  · exact List.Sublist.refl _
  · exact List.filter_sublist s
  · exact List.Sublist.refl _

theorem assign_value_fst (st : SSt) (box : String) (val : List Char)
    (b : String) :
    (assign_value st box val).1 b = if b = box then val else st.1 b := by
  by_cases h : st.1 box = val
  · simp only [assign_value, if_pos h]
    by_cases hb : b = box
    · rw [if_pos hb, hb, h]
    · rw [if_neg hb]
  · simp only [assign_value, if_neg h]
    by_cases hl : val.length = 1
    · rw [if_pos hl]
    · rw [if_neg hl]

theorem assign_value_log (st : SSt) (box : String) (val : List Char) :
    logLE st.2 (assign_value st box val).2 := by
  by_cases h : st.1 box = val
  · simp only [assign_value, if_pos h]
    exact logLE_refl _
  · simp only [assign_value, if_neg h]
    by_cases hl : val.length = 1
    · rw [if_pos hl]
      exact ⟨_, rfl⟩
    · rw [if_neg hl]
      exact logLE_refl _

theorem assign_value_ptSub (st : SSt) (box : String) (val : List Char)
    (h : List.Sublist val (st.1 box)) :
    PtSub (assign_value st box val).1 st.1 := by
  intro b
  rw [assign_value_fst]
  by_cases hb : b = box
  · subst hb
    rw [if_pos rfl]
    exact h
  · rw [if_neg hb]

theorem runList_ptSub (f : SSt → α → SSt)
    (h : ∀ st a, PtSub (f st a).1 st.1) :
    ∀ (l : List α) (st : SSt), PtSub ((runList f l st)).1 st.1 := by
  intro l
  induction l with
  | nil => intro st; exact ptSub_refl _
  | cons a l ih =>
    intro st
    rw [runList_eq_foldl, List.foldl_cons, ← runList_eq_foldl]
    exact ptSub_trans (ih (f st a)) (h st a)

theorem runList_logLE (f : SSt → α → SSt)
    (h : ∀ st a, logLE st.2 (f st a).2) :
    ∀ (l : List α) (st : SSt), logLE st.2 ((runList f l st)).2 := by
  intro l
  induction l with
  | nil => intro st; exact logLE_refl _
  | cons a l ih =>
    intro st
    rw [runList_eq_foldl, List.foldl_cons, ← runList_eq_foldl]
    exact logLE_trans (h st a) (ih (f st a))

theorem elimBox_ptSub (st : SSt) (box : String) :
    PtSub (elimBox st box).1 st.1 :=
  runList_ptSub _
    (fun st2 peer => assign_value_ptSub st2 peer _ (replaceDel_sublist _ _))
    (peers box) st

theorem elimBox_logLE (st : SSt) (box : String) :
    logLE st.2 (elimBox st box).2 :=
  runList_logLE _ (fun st2 peer => assign_value_log st2 peer _) (peers box) st

theorem eliminate_ptSub (st : SSt) : PtSub (eliminate st).1 st.1 :=
  runList_ptSub elimBox elimBox_ptSub _ st

theorem eliminate_logLE (st : SSt) : logLE st.2 (eliminate st).2 :=
  runList_logLE elimBox elimBox_logLE _ st

theorem nakedStep_ptSub (unit : List String) (kv : List Char × List String)
    (st5 : SSt) (value : Char) :
    PtSub
      ((runList
        (fun st6 btx =>
          if value ∈ st6.1 btx then
            assign_value st6 btx (replaceDel (st6.1 btx) [value])
          else st6) (unit.filter (fun ub => !(kv.2.contains ub))) st5)).1
      st5.1 := by
  apply runList_ptSub
  intro st6 btx
  by_cases h : value ∈ st6.1 btx
  · rw [if_pos h]
    exact assign_value_ptSub st6 btx _ (replaceDel_sublist _ _)
  · rw [if_neg h]
    exact ptSub_refl _

theorem nakedUnit_ptSub (st : SSt) (unit : List String) :
    PtSub (nakedUnit st unit).1 st.1 := by
  apply runList_ptSub
  intro st4 kv
  apply runList_ptSub
  intro st5 value
  exact nakedStep_ptSub unit kv st5 value

theorem nakedUnit_logLE (st : SSt) (unit : List String) :
    logLE st.2 (nakedUnit st unit).2 := by
  apply runList_logLE
  intro st4 kv
  apply runList_logLE
  intro st5 value
  apply runList_logLE
  intro st6 btx
  by_cases h : value ∈ st6.1 btx
  · rw [if_pos h]
    exact assign_value_log st6 btx _
  · rw [if_neg h]
    exact logLE_refl _

theorem naked_twins_ptSub (st : SSt) : PtSub (naked_twins st).1 st.1 :=
  runList_ptSub _
    (fun st2 box => runList_ptSub nakedUnit nakedUnit_ptSub (units box) st2)
    boxes st

theorem naked_twins_logLE (st : SSt) : logLE st.2 (naked_twins st).2 :=
  runList_logLE _
    (fun st2 box => runList_logLE nakedUnit nakedUnit_logLE (units box) st2)
    boxes st

theorem only_choice_step_ptSub (unit : List String) (st3 : SSt) (digit : Char) :
    PtSub
      ((match unit.filter (fun box => digit ∈ st3.1 box) with
        | [b] => assign_value st3 b [digit]
        | _ => st3) : SSt).1
      st3.1 := by
  cases hd : unit.filter (fun box => digit ∈ st3.1 box) with
  | nil => exact ptSub_refl _
  | cons b rest =>
    cases rest with
    | nil =>
      have hb : b ∈ unit.filter (fun box => digit ∈ st3.1 box) := by
        rw [hd]; exact List.mem_cons_self b []
      have hmem : digit ∈ st3.1 b := by
        have := (List.mem_filter.mp hb).2
        simpa using this
      exact assign_value_ptSub st3 b [digit] (List.singleton_sublist.mpr hmem)
    | cons b2 rest2 => exact ptSub_refl _

theorem only_choice_ptSub (st : SSt) : PtSub (only_choice st).1 st.1 := by
  apply runList_ptSub
  intro st2 unit
  apply runList_ptSub
  intro st3 digit
  exact only_choice_step_ptSub unit st3 digit

theorem only_choice_logLE (st : SSt) : logLE st.2 (only_choice st).2 := by
  apply runList_logLE
  intro st2 unit
  apply runList_logLE
  intro st3 digit
  cases hd : unit.filter (fun box => digit ∈ st3.1 box) with
  | nil => exact logLE_refl _
  | cons b rest =>
    cases rest with
    | nil => exact assign_value_log st3 b [digit]
    | cons b2 rest2 => exact logLE_refl _

theorem stepSt_ptSub (st : SSt) : PtSub (stepSt st).1 st.1 :=
  ptSub_trans (only_choice_ptSub _)
    (ptSub_trans (naked_twins_ptSub _) (eliminate_ptSub st))

theorem stepSt_logLE (st : SSt) : logLE st.2 (stepSt st).2 :=
  logLE_trans (eliminate_logLE st)
    (logLE_trans (naked_twins_logLE _) (only_choice_logLE _))

theorem foldl_ptSub (f : SSt → α → SSt)
    (h : ∀ st a, PtSub (f st a).1 st.1) :
    ∀ (l : List α) (st : SSt), PtSub ((List.foldl f st l)).1 st.1 := by
  intro l
  induction l with
  | nil => intro st; exact ptSub_refl _
  | cons a l ih =>
    intro st
    rw [List.foldl_cons]
    exact ptSub_trans (ih (f st a)) (h st a)

/-! ### Counting helpers -/

theorem filter_length_le (l : List α) (p q : α → Bool)
    (h : ∀ x ∈ l, p x = true → q x = true) :
    (l.filter p).length ≤ (l.filter q).length := by
  rw [← List.countP_eq_length_filter p l, ← List.countP_eq_length_filter q l]
  exact List.countP_mono_left h

theorem filter_length_eq_rev (l : List α) (p q : α → Bool)
    (h : ∀ x ∈ l, p x = true → q x = true)
    (heq : (l.filter p).length = (l.filter q).length) :
    ∀ x ∈ l, q x = true → p x = true := by
  induction l with
  | nil => intro x hx; cases hx
  | cons a l ih =>
    have htail := fun x hx => h x (List.mem_cons_of_mem a hx)
    have hle := filter_length_le l p q htail
    intro x hx hqx
    by_cases hpa : p a = true
    · have hqa : q a = true := h a (List.mem_cons_self a l) hpa
      rw [List.filter_cons, List.filter_cons, if_pos hpa, if_pos hqa] at heq
      simp only [List.length_cons] at heq
      have heq2 : (l.filter p).length = (l.filter q).length := by omega
      rcases List.mem_cons.mp hx with heqx | hx2
      · rw [heqx]; exact hpa
      · exact ih htail heq2 x hx2 hqx
    · by_cases hqa : q a = true
      · rw [List.filter_cons, List.filter_cons, if_neg hpa, if_pos hqa] at heq
        simp only [List.length_cons] at heq
        omega
      · rw [List.filter_cons, List.filter_cons, if_neg hpa, if_neg hqa] at heq
        rcases List.mem_cons.mp hx with heqx | hx2
        · rw [heqx] at hqx; exact absurd hqx hqa
        · exact ih htail heq x hx2 hqx

theorem filter_length_lt (l : List α) (p q : α → Bool)
    (h : ∀ x ∈ l, p x = true → q x = true) (b : α) (hb : b ∈ l)
    (hqb : q b = true) (hpb : p b = false) :
    (l.filter p).length < (l.filter q).length := by
  induction l with
  | nil => cases hb
  | cons a l ih =>
    have htail := fun x hx => h x (List.mem_cons_of_mem a hx)
    have hle := filter_length_le l p q htail
    rcases List.mem_cons.mp hb with heqb | hb2
    · rw [heqb] at hpb hqb
      rw [List.filter_cons, List.filter_cons,
        if_neg (by rw [hpb]; exact Bool.false_ne_true), if_pos hqb]
      simp only [List.length_cons]
      omega
    · have hstrict := ih htail hb2
      by_cases hpa : p a = true
      · have hqa := h a (List.mem_cons_self a l) hpa
        rw [List.filter_cons, List.filter_cons, if_pos hpa, if_pos hqa]
        simp only [List.length_cons]
        omega
      · by_cases hqa : q a = true
        · rw [List.filter_cons, List.filter_cons, if_neg hpa, if_pos hqa]
          simp only [List.length_cons]
          omega
        · rw [List.filter_cons, List.filter_cons, if_neg hpa, if_neg hqa]
          exact hstrict

theorem map_sum_lt (l : List String) (f g : String → Nat)
    (hle : ∀ x ∈ l, f x ≤ g x) (b : String) (hb : b ∈ l) (hlt : f b < g b) :
    (l.map f).sum < (l.map g).sum := by
  induction l with
  | nil => cases hb
  | cons a l ih =>
    rw [List.map_cons, List.map_cons, List.sum_cons, List.sum_cons]
    rcases List.mem_cons.mp hb with heq | hb'
    · rw [heq] at hlt
      have hsum : (l.map f).sum ≤ (l.map g).sum :=
        List.sum_le_sum (fun x hx => hle x (List.mem_cons_of_mem a hx))
      omega
    · have hfa := hle a (List.mem_cons_self a l)
      have := ih (fun x hx => hle x (List.mem_cons_of_mem a hx)) hb'
      omega

/-! ### Boolean predicate bridges -/

theorem hasEmpty_false_iff {v : Board} :
    hasEmpty v = false ↔ ∀ b ∈ boxes, v b ≠ [] := by
  unfold hasEmpty
  constructor
  · intro h b hb hnil
    have : boxes.any (fun b => (v b).length == 0) = true :=
      List.any_eq_true.mpr ⟨b, hb, by rw [hnil]; rfl⟩
    rw [h] at this
    exact Bool.noConfusion this
  · intro h
    by_contra hc
    have hany : boxes.any (fun b => (v b).length == 0) = true := by
      revert hc
      cases boxes.any (fun b => (v b).length == 0) <;> simp
    rcases List.any_eq_true.mp hany with ⟨b, hb, hbe⟩
    have : (v b).length = 0 := beq_iff_eq.mp hbe
    exact h b hb (List.length_eq_zero.mp this)

theorem allSingleton_true_iff {v : Board} :
    allSingleton v = true ↔ ∀ b ∈ boxes, (v b).length = 1 := by
  unfold allSingleton
  rw [List.all_eq_true]
  constructor
  · intro h b hb
    exact beq_iff_eq.mp (h b hb)
  · intro h b hb
    exact beq_iff_eq.mpr (h b hb)

theorem allSingleton_false {v : Board} (h : allSingleton v = false) :
    ∃ b ∈ boxes, (v b).length ≠ 1 := by
  by_contra hc
  push_neg at hc
  have : allSingleton v = true :=
    allSingleton_true_iff.mpr hc
  rw [h] at this
  exact Bool.noConfusion this

theorem solvedCount_congr {v w : Board}
    (h : ∀ b ∈ boxes, (v b).length = (w b).length) :
    solvedCount v = solvedCount w := by
  unfold solvedCount
  rw [List.filter_congr (fun b hb => by rw [h b hb])]

/-! ### Termination of the propagation loop -/

theorem stepSt_sumLen_lt {st : SSt}
    (h : solvedCount (stepSt st).1 ≠ solvedCount st.1) :
    sumLen (stepSt st).1 < sumLen st.1 := by
  have hsub := stepSt_ptSub st
  have hx : ¬ ∀ b ∈ boxes, ((stepSt st).1 b).length = (st.1 b).length :=
    fun hall => h (solvedCount_congr hall)
  push_neg at hx
  rcases hx with ⟨b, hb, hne⟩
  unfold sumLen
  exact map_sum_lt boxes _ _ (fun x _ => (hsub x).length_le) b hb
    (Nat.lt_of_le_of_ne ((hsub b).length_le) hne)

theorem reduceFuel_succ (n : Nat) (st : SSt) :
    reduceFuel (n + 1) st =
      if hasEmpty (stepSt st).1 then (RRes.rfalse, (stepSt st).2)
      else if solvedCount (stepSt st).1 == solvedCount st.1 then
        (RRes.vals (stepSt st).1, (stepSt st).2)
      else reduceFuel n (stepSt st) := rfl

theorem reduceFuel_no_fuelOut :
    ∀ (fuel : Nat) (st : SSt), sumLen st.1 < fuel →
      (reduceFuel fuel st).1 ≠ RRes.rfuel := by
  intro fuel
  induction fuel with
  | zero => intro st h; exact absurd h (Nat.not_lt_zero _)
  | succ n ih =>
    intro st h
    rw [reduceFuel_succ]
    by_cases he : hasEmpty (stepSt st).1 = true
    · rw [if_pos he]
      intro hx
      exact RRes.noConfusion hx
    · rw [if_neg he]
      by_cases hc : (solvedCount (stepSt st).1 == solvedCount st.1) = true
      · rw [if_pos hc]
        intro hx
        exact RRes.noConfusion hx
      · rw [if_neg hc]
        have hne : solvedCount (stepSt st).1 ≠ solvedCount st.1 := by
          intro hx
          exact hc (beq_iff_eq.mpr hx)
        have hlt := stepSt_sumLen_lt hne
        exact ih (stepSt st) (by omega)

/-- `reduce_puzzle` always terminates: its fuel `sumLen + 1` is sufficient. -/
theorem reduce_puzzle_no_rfuel (st : SSt) :
    (reduce_puzzle st).1 ≠ RRes.rfuel :=
  reduceFuel_no_fuelOut _ st (Nat.lt_succ_self _)

theorem reduceFuel_vals_inv :
    ∀ (fuel : Nat) (st : SSt) (r : Board) (lg : Log),
      reduceFuel fuel st = (RRes.vals r, lg) →
      ∃ stl : SSt, PtSub stl.1 st.1 ∧ r = (stepSt stl).1 ∧
        solvedCount r = solvedCount stl.1 ∧ hasEmpty r = false := by
  intro fuel
  induction fuel with
  | zero =>
    intro st r lg h
    simp only [reduceFuel] at h
    exact absurd (congrArg Prod.fst h) (fun hx => RRes.noConfusion hx)
  | succ n ih =>
    intro st r lg h
    rw [reduceFuel_succ] at h
    by_cases he : hasEmpty (stepSt st).1 = true
    · rw [if_pos he] at h
      exact absurd (congrArg Prod.fst h) (fun hx => RRes.noConfusion hx)
    · rw [if_neg he] at h
      by_cases hc : (solvedCount (stepSt st).1 == solvedCount st.1) = true
      · rw [if_pos hc] at h
        have h1 := congrArg Prod.fst h
        have h2 : (stepSt st).1 = r := by
          have := congrArg Prod.fst h
          simp only at this
          exact RRes.vals.inj this
        refine ⟨st, ptSub_refl _, h2.symm, ?_, ?_⟩
        · rw [← h2]
          exact beq_iff_eq.mp hc
        · rw [← h2]
          revert he
          cases hasEmpty (stepSt st).1 <;> simp
      · rw [if_neg hc] at h
        rcases ih (stepSt st) r lg h with ⟨stl, hsub, hr, hcnt, hemp⟩
        exact ⟨stl, ptSub_trans hsub (stepSt_ptSub st), hr, hcnt, hemp⟩

/-- A board returned by `reduce_puzzle` shrinks the input pointwise and has
no empty cells. -/
theorem reduce_vals_basic {st : SSt} {r : Board} {lg : Log}
    (h : reduce_puzzle st = (RRes.vals r, lg)) :
    PtSub r st.1 ∧ hasEmpty r = false := by
  rcases reduceFuel_vals_inv _ st r lg h with ⟨stl, hsub, hr, _, hemp⟩
  constructor
  · rw [hr]
    exact ptSub_trans (stepSt_ptSub stl) hsub
  · exact hemp

/-! ### Termination of the search -/

theorem unsolvedCount_mono {w v : Board} (h : PtSub w v) :
    unsolvedCount w ≤ unsolvedCount v := by
  unfold unsolvedCount
  apply filter_length_le
  intro x _ hx
  have h1 : 1 < (w x).length := by simpa using hx
  have h2 : (w x).length ≤ (v x).length := (h x).length_le
  simpa using Nat.lt_of_lt_of_le h1 h2

theorem unsolvedCount_le (v : Board) : unsolvedCount v ≤ 81 := by
  unfold unsolvedCount
  calc (boxes.filter _).length ≤ boxes.length := List.length_filter_le _ _
    _ = 81 := boxes_length

theorem unsolvedCount_forced_lt {r : Board} {s : String} {c : Char}
    (hs : s ∈ boxes) (h2 : 2 ≤ (r s).length) :
    unsolvedCount (forced r s c) < unsolvedCount r := by
  unfold unsolvedCount
  refine filter_length_lt boxes _ _ ?_ s hs ?_ ?_
  · intro x hx hpx
    by_cases hxs : x = s
    · exfalso
      rw [hxs] at hpx
      have hl : 1 < (forced r s c s).length := of_decide_eq_true hpx
      unfold forced at hl
      rw [if_pos rfl] at hl
      exact absurd hl (by simp)
    · apply decide_eq_true
      have hl : 1 < (forced r s c x).length := of_decide_eq_true hpx
      unfold forced at hl
      rw [if_neg hxs] at hl
      exact hl
  · exact decide_eq_true (by omega)
  · apply decide_eq_false
    intro hcon
    unfold forced at hcon
    rw [if_pos rfl] at hcon
    exact absurd hcon (by simp)

/-! ### The `search` recursion -/

/-- Boards reachable from a well-formed grid: every cell's candidate string
is an in-order selection from `"123456789"`. -/

theorem good_of_ptSub {w v : Board} (hsub : PtSub w v) (hg : Good v) :
    Good w := fun x => (hsub x).trans (hg x)

theorem good_forced {r : Board} {s : String} {c : Char} (hg : Good r)
    (hc : c ∈ r s) : Good (forced r s c) := by
  intro x
  unfold forced
  by_cases hxs : x = s
  · rw [if_pos hxs]
    exact List.singleton_sublist.mpr ((hg s).mem (hxs ▸ hc))
  · rw [if_neg hxs]
    exact hg x

theorem searchFuel_succ (n : Nat) (st : SSt) :
    searchFuel (n + 1) st = searchStep (searchFuel n) (reduce_puzzle st) := rfl

theorem searchStep_rfalse (f : SSt → SR × Log) (log : Log) :
    searchStep f (RRes.rfalse, log) = (SR.pyFalse, log) := rfl

theorem searchStep_rfuel (f : SSt → SR × Log) (log : Log) :
    searchStep f (RRes.rfuel, log) = (SR.fuelOut, log) := rfl

theorem searchStep_vals (f : SSt → SR × Log) (r : Board) (log : Log) :
    searchStep f (RRes.vals r, log) =
      if allSingleton r then (SR.board r, log)
      else tryValues f r (minChoice r).2 (r (minChoice r).2) log := rfl

theorem searchFuel_eq_pyFalse {n : Nat} {st : SSt} {log : Log}
    (h : reduce_puzzle st = (RRes.rfalse, log)) :
    searchFuel (n + 1) st = (SR.pyFalse, log) := by
  rw [searchFuel_succ, h, searchStep_rfalse]

theorem searchFuel_eq_fuelOut {n : Nat} {st : SSt} {log : Log}
    (h : reduce_puzzle st = (RRes.rfuel, log)) :
    searchFuel (n + 1) st = (SR.fuelOut, log) := by
  rw [searchFuel_succ, h, searchStep_rfuel]

theorem searchFuel_eq_vals {n : Nat} {st : SSt} {r : Board} {log : Log}
    (h : reduce_puzzle st = (RRes.vals r, log)) :
    searchFuel (n + 1) st =
      if allSingleton r then (SR.board r, log)
      else tryValues (searchFuel n) r (minChoice r).2 (r (minChoice r).2) log := by
  rw [searchFuel_succ, h, searchStep_vals]

theorem tryValues_nil (f : SSt → SR × Log) (r : Board) (s : String) (log : Log) :
    tryValues f r s [] log = (SR.pyNone, log) := rfl

theorem tryValues_cons_board {f : SSt → SR × Log} {r : Board} {s : String}
    {c : Char} {cs : List Char} {log log2 : Log} {b : Board}
    (h : f (forced r s c, log) = (SR.board b, log2)) :
    tryValues f r s (c :: cs) log = (SR.board b, log2) := by
  unfold tryValues
  rw [h]

theorem tryValues_cons_fuelOut {f : SSt → SR × Log} {r : Board} {s : String}
    {c : Char} {cs : List Char} {log log2 : Log}
    (h : f (forced r s c, log) = (SR.fuelOut, log2)) :
    tryValues f r s (c :: cs) log = (SR.fuelOut, log2) := by
  unfold tryValues
  rw [h]

theorem tryValues_cons_pyFalse {f : SSt → SR × Log} {r : Board} {s : String}
    {c : Char} {cs : List Char} {log log2 : Log}
    (h : f (forced r s c, log) = (SR.pyFalse, log2)) :
    tryValues f r s (c :: cs) log = tryValues f r s cs log2 := by
  conv_lhs => rw [tryValues]
  rw [h]

theorem tryValues_cons_pyNone {f : SSt → SR × Log} {r : Board} {s : String}
    {c : Char} {cs : List Char} {log log2 : Log}
    (h : f (forced r s c, log) = (SR.pyNone, log2)) :
    tryValues f r s (c :: cs) log = tryValues f r s cs log2 := by
  conv_lhs => rw [tryValues]
  rw [h]

theorem tryValues_no_fuelOut {f : SSt → SR × Log} {r : Board} {s : String} :
    ∀ (cs : List Char) (log : Log),
      (∀ c ∈ cs, ∀ lg : Log, (f (forced r s c, lg)).1 ≠ SR.fuelOut) →
      (tryValues f r s cs log).1 ≠ SR.fuelOut := by
  intro cs
  induction cs with
  | nil =>
    intro log _
    rw [tryValues_nil]
    intro hx
    exact SR.noConfusion hx
  | cons c cs ih =>
    intro log hf
    rcases hfc : f (forced r s c, log) with ⟨res, log2⟩
    cases res with
    | board b =>
      rw [tryValues_cons_board hfc]
      intro hx
      exact SR.noConfusion hx
    | pyFalse =>
      rw [tryValues_cons_pyFalse hfc]
      exact ih log2 (fun c2 hc2 => hf c2 (List.mem_cons_of_mem c hc2))
    | pyNone =>
      rw [tryValues_cons_pyNone hfc]
      exact ih log2 (fun c2 hc2 => hf c2 (List.mem_cons_of_mem c hc2))
    | fuelOut =>
      exact absurd (by rw [hfc]) (hf c (List.mem_cons_self c cs) log)

theorem tryValues_board_inv {f : SSt → SR × Log} {r : Board} {s : String} :
    ∀ (cs : List Char) (log : Log) (b : Board) (lg2 : Log),
      tryValues f r s cs log = (SR.board b, lg2) →
      ∃ c ∈ cs, ∃ lg : Log, f (forced r s c, lg) = (SR.board b, lg2) := by
  intro cs
  induction cs with
  | nil =>
    intro log b lg2 h
    rw [tryValues_nil] at h
    exact absurd (congrArg Prod.fst h) (fun hx => SR.noConfusion hx)
  | cons c cs ih =>
    intro log b lg2 h
    rcases hfc : f (forced r s c, log) with ⟨res, log2⟩
    cases res with
    | board b0 =>
      rw [tryValues_cons_board hfc] at h
      exact ⟨c, List.mem_cons_self c cs, log, by rw [hfc, h]⟩
    | pyFalse =>
      rw [tryValues_cons_pyFalse hfc] at h
      rcases ih log2 b lg2 h with ⟨c2, hc2, lg, hf2⟩
      exact ⟨c2, List.mem_cons_of_mem c hc2, lg, hf2⟩
    | pyNone =>
      rw [tryValues_cons_pyNone hfc] at h
      rcases ih log2 b lg2 h with ⟨c2, hc2, lg, hf2⟩
      exact ⟨c2, List.mem_cons_of_mem c hc2, lg, hf2⟩
    | fuelOut =>
      rw [tryValues_cons_fuelOut hfc] at h
      exact absurd (congrArg Prod.fst h) (fun hx => SR.noConfusion hx)

/-- The candidate list at a branch point is nonempty: the board is not all
singletons and has no empty cell. -/
theorem candsOf_ne_nil {r : Board} (hne : hasEmpty r = false)
    (hns : allSingleton r = false) : candsOf r ≠ [] := by
  rcases allSingleton_false hns with ⟨b, hb, h1⟩
  have h0 : r b ≠ [] := hasEmpty_false_iff.mp hne b hb
  have h2 : 1 < (r b).length := by
    have : (r b).length ≠ 0 := fun hx => h0 (List.length_eq_zero.mp hx)
    omega
  exact List.ne_nil_of_mem (mem_candsOf.mpr ⟨hb, h2⟩)

/-- Search depth bound: with fuel exceeding the number of unsolved cells the
recursion never exhausts its fuel.  This is the termination argument for
`search` (depth bounded by the unsolved-cell count, at most 81). -/
theorem searchFuel_no_fuelOut :
    ∀ (n : Nat) (st : SSt), unsolvedCount st.1 < n →
      (searchFuel n st).1 ≠ SR.fuelOut := by
  intro n
  induction n with
  | zero => intro st h; exact absurd h (Nat.not_lt_zero _)
  | succ n ih =>
    intro st h
    rcases hr : reduce_puzzle st with ⟨res, log⟩
    cases res with
    | rfalse =>
      rw [searchFuel_eq_pyFalse hr]
      intro hx
      exact SR.noConfusion hx
    | rfuel =>
      exact absurd (by rw [hr]) (reduce_puzzle_no_rfuel st)
    | vals r =>
      rw [searchFuel_eq_vals hr]
      by_cases hall : allSingleton r = true
      · rw [if_pos hall]
        intro hx
        exact SR.noConfusion hx
      · have hall2 : allSingleton r = false := by
          revert hall; cases allSingleton r <;> simp
        rw [if_neg (by rw [hall2]; exact Bool.false_ne_true)]
        rcases reduce_vals_basic hr with ⟨hsub, hemp⟩
        have hcne := candsOf_ne_nil hemp hall2
        rcases minChoice_spec r hcne with ⟨⟨hmem, hlen⟩, _⟩
        rcases mem_candsOf.mp hmem with ⟨hsb, hlt⟩
        apply tryValues_no_fuelOut
        intro c _ lg
        apply ih
        show unsolvedCount (forced r (minChoice r).2 c) < n
        have hforced := @unsolvedCount_forced_lt r (minChoice r).2 c hsb (by omega)
        have hmono := unsolvedCount_mono hsub
        omega

/-- With the canonical fuel `82`, `search` always returns one of the three
Python outcomes. -/
theorem search_no_fuelOut (st : SSt) : (search st).1 ≠ SR.fuelOut :=
  searchFuel_no_fuelOut 82 st (by
    have := unsolvedCount_le st.1
    omega)

theorem tryValues_logLE {f : SSt → SR × Log} {r : Board} {s : String}
    (hf : ∀ st' : SSt, logLE st'.2 (f st').2) :
    ∀ (cs : List Char) (log : Log), logLE log (tryValues f r s cs log).2 := by
  intro cs
  induction cs with
  | nil => intro log; rw [tryValues_nil]; exact logLE_refl _
  | cons c cs ih =>
    intro log
    rcases hfc : f (forced r s c, log) with ⟨res, log2⟩
    have hstep : logLE log log2 := by
      have := hf (forced r s c, log)
      rw [hfc] at this
      exact this
    cases res with
    | board b => rw [tryValues_cons_board hfc]; exact hstep
    | fuelOut => rw [tryValues_cons_fuelOut hfc]; exact hstep
    | pyFalse =>
      rw [tryValues_cons_pyFalse hfc]
      exact logLE_trans hstep (ih log2)
    | pyNone =>
      rw [tryValues_cons_pyNone hfc]
      exact logLE_trans hstep (ih log2)

theorem reduceFuel_logLE :
    ∀ (fuel : Nat) (st : SSt), logLE st.2 (reduceFuel fuel st).2 := by
  intro fuel
  induction fuel with
  | zero => intro st; exact logLE_refl _
  | succ n ih =>
    intro st
    have hsucc := reduceFuel_succ n st
    have hstepLog : logLE st.2 (stepSt st).2 := stepSt_logLE st
    generalize hstep : stepSt st = st2 at hsucc hstepLog
    rw [hsucc]
    by_cases he : hasEmpty st2.1 = true
    · rw [if_pos he]
      exact hstepLog
    · rw [if_neg he]
      by_cases hc : (solvedCount st2.1 == solvedCount st.1) = true
      · rw [if_pos hc]
        exact hstepLog
      · rw [if_neg hc]
        exact logLE_trans hstepLog (ih st2)

theorem reduce_puzzle_logLE (st : SSt) : logLE st.2 (reduce_puzzle st).2 :=
  reduceFuel_logLE _ st

/-- The assignment log only ever grows during `search`: every log present at
call time is an initial segment of the final log. -/
theorem searchFuel_logLE :
    ∀ (n : Nat) (st : SSt), logLE st.2 (searchFuel n st).2 := by
  intro n
  induction n with
  | zero => intro st; exact logLE_refl _
  | succ n ih =>
    intro st
    rcases hr : reduce_puzzle st with ⟨res, log⟩
    have hred : logLE st.2 log := by
      have := reduce_puzzle_logLE st
      rw [hr] at this
      exact this
    cases res with
    | rfalse => rw [searchFuel_eq_pyFalse hr]; exact hred
    | rfuel => rw [searchFuel_eq_fuelOut hr]; exact hred
    | vals r =>
      rw [searchFuel_eq_vals hr]
      by_cases hall : allSingleton r = true
      · rw [if_pos hall]
        exact hred
      · rw [if_neg hall]
        exact logLE_trans hred (tryValues_logLE (fun st3 => ih st3) _ log)

/-! ### Validity of solved boards (claim C1) -/

theorem sandwich {lo mid hi : List Char} (h1 : List.Sublist lo mid)
    (h2 : List.Sublist mid hi) (heq : lo = hi) : mid = hi :=
  h2.eq_of_length_le (by rw [← heq]; exact h1.length_le)

theorem replaceDel_single (s : List Char) (d : Char) :
    replaceDel s [d] = s.filter (fun x => x ≠ d) := rfl

theorem assign_value_at (st : SSt) (box : String) (val : List Char) :
    (assign_value st box val).1 box = val := by
  rw [assign_value_fst, if_pos rfl]

theorem countP_congr2 {l : List α} {p q : α → Bool}
    (h : ∀ a ∈ l, p a = q a) : l.countP p = l.countP q := by
  induction l with
  | nil => rfl
  | cons a l ih =>
    rw [List.countP_cons, List.countP_cons, h a (List.mem_cons_self a l),
      ih (fun x hx => h x (List.mem_cons_of_mem a hx))]

theorem sublist_singleton_ne_nil {l : List Char} {c : Char}
    (hsub : List.Sublist l [c]) (hne : l ≠ []) : l = [c] := by
  rcases List.sublist_singleton.mp hsub with h | h
  · exact absurd h hne
  · exact h

/-- After the elimination loop has processed the peers of a box whose digit
read was `[d]`, no peer of that box contains `d` any more (the loop only
removes digits, so nothing reintroduces it). -/
theorem elim_fold_not_mem (d : Char) :
    ∀ (l : List String) (st : SSt), ∀ p ∈ l,
      d ∉ ((l.foldl (fun st2 peer =>
        assign_value st2 peer (replaceDel (st2.1 peer) [d])) st)).1 p := by
  intro l
  induction l with
  | nil => intro st p hp; cases hp
  | cons q l ih =>
    intro st p hp
    rw [List.foldl_cons]
    rcases List.mem_cons.mp hp with heq | hp2
    · rw [heq]
      set st1 := assign_value st q (replaceDel (st.1 q) [d]) with hst1
      have hq : st1.1 q = replaceDel (st.1 q) [d] := assign_value_at st q _
      have hnotin : d ∉ st1.1 q := by
        rw [hq, replaceDel_single]
        intro hmem
        have h2 := (List.mem_filter.mp hmem).2
        simp at h2
      have hsub := foldl_ptSub
        (fun st2 peer => assign_value st2 peer (replaceDel (st2.1 peer) [d]))
        (fun st2 a => assign_value_ptSub st2 a _ (replaceDel_sublist _ _)) l st1
      intro hmem
      exact hnotin ((hsub q).mem hmem)
    · exact ih _ p hp2

/-- If elimination reads digit `[d]` for box `a`, every peer of `a` has `d`
removed by `elimBox`. -/
theorem elimBox_removes {st : SSt} {a : String} {d : Char}
    (hda : st.1 a = [d]) :
    ∀ p ∈ peers a, d ∉ (elimBox st a).1 p := by
  intro p hp
  rw [elimBox_eq, hda]
  exact elim_fold_not_mem d (peers a) st p hp

/-- Claim C1's key step: if `a` is solved as `[d]` on entry to `eliminate`
and still holds `[d]` afterwards, then `d` is absent from every peer of `a`
in the result of `eliminate`. -/
theorem eliminate_removes {st : SSt} {a : String} {d : Char}
    (ha : a ∈ boxes) (hsa : st.1 a = [d])
    (hstill : (eliminate st).1 a = [d]) :
    ∀ p ∈ peers a, d ∉ (eliminate st).1 p := by
  intro p hp
  have hmem : a ∈ boxes.filter (fun b => (st.1 b).length == 1) :=
    List.mem_filter.mpr ⟨ha, by rw [hsa]; rfl⟩
  rcases List.append_of_mem hmem with ⟨l1, l2, hsplit⟩
  have helim : eliminate st = l2.foldl elimBox (elimBox (l1.foldl elimBox st) a) := by
    rw [eliminate_eq, hsplit, List.foldl_append, List.foldl_cons]
  have hsub1 : PtSub (l1.foldl elimBox st).1 st.1 :=
    foldl_ptSub elimBox elimBox_ptSub l1 st
  have hsub2 : PtSub (elimBox (l1.foldl elimBox st) a).1 (l1.foldl elimBox st).1 :=
    elimBox_ptSub _ a
  have hsub3 : PtSub (eliminate st).1 (elimBox (l1.foldl elimBox st) a).1 := by
    rw [helim]
    exact foldl_ptSub elimBox elimBox_ptSub l2 _
  have h1a : (l1.foldl elimBox st).1 a = [d] := by
    have hmid := sandwich ((ptSub_trans hsub3 hsub2) a) (hsub1 a)
      (by rw [hstill, hsa])
    rw [hmid, hsa]
  have hrm : d ∉ (elimBox (l1.foldl elimBox st) a).1 p := elimBox_removes h1a p hp
  intro hmem2
  exact hrm ((hsub3 p).mem hmem2)

/-- The heart of claim C1: when a propagation pass leaves the solved count
unchanged, produces no empty cell and every cell is a singleton, the board is
a valid solved diagonal Sudoku. -/
theorem stalled_singleton_valid {st : SSt}
    (hGood : Good st.1)
    (hcnt : solvedCount (stepSt st).1 = solvedCount st.1)
    (hne : hasEmpty (stepSt st).1 = false)
    (hall : allSingleton (stepSt st).1 = true) :
    BoardSolvedValid (stepSt st).1 := by
  have hall2 : ∀ b ∈ boxes, ((stepSt st).1 b).length = 1 :=
    allSingleton_true_iff.mp hall
  have hne2 : ∀ b ∈ boxes, (stepSt st).1 b ≠ [] := hasEmpty_false_iff.mp hne
  have hptr : PtSub (stepSt st).1 st.1 := stepSt_ptSub st
  have hmidElim : PtSub (stepSt st).1 (eliminate st).1 :=
    ptSub_trans (only_choice_ptSub (naked_twins (eliminate st)))
      (naked_twins_ptSub (eliminate st))
  have hkeep : ∀ b ∈ boxes, (st.1 b).length = 1 → (stepSt st).1 b = st.1 b := by
    intro b hb h1
    rcases List.length_eq_one.mp h1 with ⟨c, hc⟩
    rw [hc]
    exact sublist_singleton_ne_nil (by rw [← hc]; exact hptr b) (hne2 b hb)
  have hrev : ∀ b ∈ boxes, ((stepSt st).1 b).length = 1 → (st.1 b).length = 1 := by
    have hpq : ∀ x ∈ boxes, ((st.1 x).length == 1) = true →
        (((stepSt st).1 x).length == 1) = true := by
      intro x hx hpx
      rw [hkeep x hx (beq_iff_eq.mp hpx)]
      exact hpx
    have hlen : (boxes.filter (fun b => ((st.1 b).length == 1))).length
        = (boxes.filter (fun b => (((stepSt st).1 b).length == 1))).length := by
      have h2 := hcnt
      unfold solvedCount at h2
      exact h2.symm
    intro b hb h1
    exact beq_iff_eq.mp
      (filter_length_eq_rev boxes _ _ hpq hlen b hb (beq_iff_eq.mpr h1))
  have hagree : ∀ b ∈ boxes, st.1 b = (stepSt st).1 b := fun b hb =>
    (hkeep b hb (hrev b hb (hall2 b hb))).symm
  have hpair : ∀ u ∈ unitlist, ∀ a ∈ u, ∀ b ∈ u, a ≠ b →
      (stepSt st).1 a ≠ (stepSt st).1 b := by
    intro u hu a hau b hbu hab heqv
    have hboxes := (unitlist_facts u hu).2.2
    have hbxa : a ∈ boxes := hboxes a hau
    have hbxb : b ∈ boxes := hboxes b hbu
    rcases List.length_eq_one.mp (hall2 a hbxa) with ⟨d, hd⟩
    have hsa : st.1 a = [d] := by rw [hagree a hbxa, hd]
    have hestA : (eliminate st).1 a = [d] := by
      have hmid := sandwich (hmidElim a) (eliminate_ptSub st a) (by rw [hd, hsa])
      rw [hmid, hsa]
    have hpeer : b ∈ peers a := peers_of_same_unit hu hau hbu (Ne.symm hab)
    have hrm := eliminate_removes hbxa hsa hestA b hpeer
    have hdb : d ∈ (stepSt st).1 b := by
      rw [← heqv, hd]
      exact List.mem_cons_self d []
    exact hrm ((hmidElim b).mem hdb)
  refine ⟨hall2, ?_⟩
  intro u hu d hd
  have hu9 := (unitlist_facts u hu).1
  have hund := (unitlist_facts u hu).2.1
  have hboxes := (unitlist_facts u hu).2.2
  have hLnodup : (u.map (stepSt st).1).Nodup := hund.map_on (by
    intro x hx y hy hxy
    by_contra hne3
    exact hpair u hu x hx y hy hne3 hxy)
  have hGoodr : Good (stepSt st).1 := good_of_ptSub hptr hGood
  have hsubmem : ∀ x ∈ u.map (stepSt st).1, x ∈ cols.map (fun c => [c]) := by
    intro x hx
    rcases List.mem_map.mp hx with ⟨b, hbu, hbx⟩
    rcases List.length_eq_one.mp (hall2 b (hboxes b hbu)) with ⟨c, hc⟩
    have hcc : c ∈ cols := (hGoodr b).mem (by
      rw [hc]
      exact List.mem_cons_self c [])
    rw [← hbx, hc]
    exact List.mem_map_of_mem _ hcc
  have hcolsnodup : (cols.map (fun c => [c])).Nodup :=
    cols_nodup.map (fun x y hxy => by simpa using hxy)
  have hperm : (u.map (stepSt st).1).Perm (cols.map (fun c => [c])) := by
    apply List.Subperm.perm_of_length_le
    · exact hLnodup.subperm hsubmem
    · rw [List.length_map, List.length_map, hu9]
      decide
  have hcount := hperm.countP_eq (fun x => x == [d])
  have hrhs : (cols.map (fun c => [c])).countP (fun x => x == [d]) = 1 := by
    rw [List.countP_map]
    show cols.countP (fun c => ([c] == [d])) = 1
    have hcols : ∀ e ∈ cols, cols.countP (fun c => ([c] == [e])) = 1 := by decide
    exact hcols d hd
  have hlhs : (u.map (stepSt st).1).countP (fun x => x == [d])
      = (u.filter (fun b => (stepSt st).1 b = [d])).length := by
    rw [List.countP_map, ← List.countP_eq_length_filter]
    apply countP_congr2
    intro b hbu
    show ((stepSt st).1 b == [d]) = decide ((stepSt st).1 b = [d])
    by_cases hbd : (stepSt st).1 b = [d]
    · rw [hbd]
      simp
    · rw [decide_eq_false hbd]
      exact beq_eq_false_iff_ne.mpr hbd
  rw [← hlhs, hcount, hrhs]

/-- Any board returned by the fueled search is a valid solved board,
provided the input board draws its candidates from `"123456789"`. -/
theorem searchFuel_board_valid :
    ∀ (n : Nat) (st : SSt) (b : Board) (lg : Log),
      Good st.1 → searchFuel n st = (SR.board b, lg) →
      BoardSolvedValid b := by
  intro n
  induction n with
  | zero =>
    intro st b lg _ h
    exact absurd (congrArg Prod.fst h) (fun hx => SR.noConfusion hx)
  | succ n ih =>
    intro st b lg hg h
    rcases hr : reduce_puzzle st with ⟨res, log⟩
    cases res with
    | rfalse =>
      rw [searchFuel_eq_pyFalse hr] at h
      exact absurd (congrArg Prod.fst h) (fun hx => SR.noConfusion hx)
    | rfuel =>
      exact absurd (by rw [hr]) (reduce_puzzle_no_rfuel st)
    | vals r =>
      rw [searchFuel_eq_vals hr] at h
      by_cases hall : allSingleton r = true
      · rw [if_pos hall] at h
        rw [Prod.mk.injEq] at h
        have hb : r = b := SR.board.inj h.1
        rcases reduceFuel_vals_inv _ st r log hr with ⟨stl, hsub, hrs, hcnt, hemp⟩
        have hgl : Good stl.1 := good_of_ptSub hsub hg
        have hval : BoardSolvedValid (stepSt stl).1 :=
          stalled_singleton_valid hgl (by rw [← hrs]; exact hcnt)
            (by rw [← hrs]; exact hemp) (by rw [← hrs]; exact hall)
        rw [← hb, hrs]
        exact hval
      · rw [if_neg hall] at h
        rcases tryValues_board_inv _ log b lg h with ⟨c, hc, lg0, hchild⟩
        rcases reduce_vals_basic hr with ⟨hsubr, _⟩
        have hgoodr : Good r := good_of_ptSub hsubr hg
        have hgchild : Good (forced r (minChoice r).2 c) := good_forced hgoodr hc
        exact ih (forced r (minChoice r).2 c, lg0) b lg hgchild hchild

/-! ### The grid decoder (claims C1 and C9) -/


theorem lookup_mem {α β : Type} [BEq α] [LawfulBEq α] :
    ∀ (l : List (α × β)) (k : α) (c : β), l.lookup k = some c → (k, c) ∈ l := by
  intro l
  induction l with
  | nil => intro k c h; exact Option.noConfusion h
  | cons p l ih =>
    intro k c h
    rcases p with ⟨k1, b1⟩
    by_cases hk : (k == k1) = true
    · have hkk : k = k1 := eq_of_beq hk
      simp only [List.lookup, hk] at h
      have hbc : b1 = c := Option.some.inj h
      rw [← hkk, ← hbc]
      exact List.mem_cons_self _ _
    · have hk2 : (k == k1) = false := by
        revert hk; cases k == k1 <;> simp
      simp only [List.lookup, hk2] at h
      exact List.mem_cons_of_mem _ (ih k c h)

/-- Decoded boards are made of in-order selections from `"123456789"`. -/
theorem decode_good {g : String} {v : Board} (hg : GridChars g)
    (h : grid_values g = some v) : Good v := by
  unfold grid_values at h
  by_cases hlen : g.length = 81
  · rw [if_pos hlen] at h
    have hv := Option.some.inj h
    intro x
    rw [← hv]
    cases hlk : (boxes.zip g.data).lookup x with
    | none =>
      show List.Sublist
        (match (boxes.zip g.data).lookup x with
          | some c => if c = '.' then cols else [c]
          | none => []) cols
      rw [hlk]
      exact List.nil_sublist cols
    | some c =>
      show List.Sublist
        (match (boxes.zip g.data).lookup x with
          | some c => if c = '.' then cols else [c]
          | none => []) cols
      rw [hlk]
      show List.Sublist (if c = '.' then cols else [c]) cols
      by_cases hdot : c = '.'
      · rw [if_pos hdot]
      · rw [if_neg hdot]
        have hcz : (x, c) ∈ boxes.zip g.data := lookup_mem _ x c hlk
        have hcd : c ∈ g.data := (List.of_mem_zip hcz).2
        rcases hg c hcd with hcc | hcc
        · exact List.singleton_sublist.mpr hcc
        · exact absurd hcc hdot
  · rw [if_neg hlen] at h
    exact Option.noConfusion h

theorem grid_values_none_iff {g : String} :
    grid_values g = none ↔ g.length ≠ 81 := by
  unfold grid_values
  by_cases hlen : g.length = 81
  · rw [if_pos hlen]
    constructor
    · intro h
      exact Option.noConfusion h
    · intro h
      exact absurd hlen h
  · rw [if_neg hlen]
    exact ⟨fun _ => hlen, fun _ => rfl⟩

theorem lookup_zip_of_nodup :
    ∀ (ks : List String) (vs : List Char) (i : Nat), ks.Nodup →
      i < ks.length → i < vs.length →
      (ks.zip vs).lookup (ks.getD i "") = some (vs.getD i ' ') := by
  intro ks
  induction ks with
  | nil => intro vs i _ hi _; exact absurd hi (by simp)
  | cons k ks ih =>
    intro vs i hnd hi hv
    cases vs with
    | nil => exact absurd hv (by simp)
    | cons v vs =>
      cases i with
      | zero =>
        show (List.lookup k ((k, v) :: ks.zip vs)) = some v
        simp [List.lookup]
      | succ i =>
        have hnd2 : ks.Nodup := hnd.of_cons
        have hik : i < ks.length := by
          simp only [List.length_cons] at hi
          omega
        have hiv : i < vs.length := by
          simp only [List.length_cons] at hv
          omega
        have hmem : ks.getD i "" ∈ ks := by
          rw [List.getD_eq_getElem ks "" hik]
          exact List.getElem_mem hik
        have hne : (ks.getD i "" == k) = false := by
          have hkne : ks.getD i "" ≠ k := by
            intro hx
            have := List.nodup_cons.mp hnd
            exact this.1 (hx ▸ hmem)
          revert hkne
          cases hbe : ks.getD i "" == k
          · intro _; rfl
          · intro hkne
            exact absurd (eq_of_beq hbe) hkne
        show List.lookup (ks.getD i "") ((k, v) :: ks.zip vs) =
          some (vs.getD i ' ')
        simp only [List.lookup, hne]
        exact ih vs i hnd2 hik hiv




/-- Inversion of `solve`: a successful run decodes the grid and searches. -/
theorem solve_some_inv {g : String} {log : Log} {r : SR × Log}
    (h : solve g log = some r) :
    ∃ v, grid_values g = some v ∧ search (v, log) = r := by
  unfold solve at h
  cases hgv : grid_values g with
  | none =>
    rw [hgv] at h
    exact Option.noConfusion h
  | some v =>
    rw [hgv] at h
    exact ⟨v, rfl, Option.some.inj h⟩

/-- `grid_values` indexed: the `i`-th box decodes the `i`-th character,
`'.'` to the full candidate list and anything else to a singleton. -/
theorem grid_values_decode {g : String} {v : Board}
    (h : grid_values g = some v) :
    ∀ i, i < 81 →
      v (boxes.getD i "") =
        if g.data.getD i ' ' = '.' then cols else [g.data.getD i ' '] := by
  unfold grid_values at h
  by_cases hlen : g.length = 81
  · rw [if_pos hlen] at h
    have hv := Option.some.inj h
    intro i hi
    rw [← hv]
    have hlk : (boxes.zip g.data).lookup (boxes.getD i "") =
        some (g.data.getD i ' ') := by
      apply lookup_zip_of_nodup boxes g.data i boxes_nodup
      · rw [boxes_length]
        exact hi
      · have hd : g.data.length = 81 := hlen
        omega
    show (match (boxes.zip g.data).lookup (boxes.getD i "") with
      | some c => if c = '.' then cols else [c]
      | none => []) = _
    rw [hlk]
  · rw [if_neg hlen] at h
    exact Option.noConfusion h

/-! ### The claims -/

/-- Claim C1: whenever `solve` on a well-formed grid string returns a board
(`SR.board`, rather than a failure value), that board assigns a single digit
to each of the 81 cells and each of the 29 units (rows, columns, boxes and
both diagonals) contains every digit 1–9 exactly once. -/
theorem C1_solved_boards_valid :
    ∀ (g : String) (log : Log) (r : SR × Log) (v : Board),
      GridChars g → solve g log = some r → r.1 = SR.board v →
      boxes.length = 81 ∧ unitlist.length = 29 ∧ BoardSolvedValid v := by
  intro g log r v hgc hs hrv
  obtain ⟨r1, r2⟩ := r
  have hr1 : r1 = SR.board v := hrv
  subst hr1
  refine ⟨boxes_length, by decide, ?_⟩
  rcases solve_some_inv hs with ⟨v0, hgv, hsearch⟩
  have hgood : Good v0 := decode_good hgc hgv
  exact searchFuel_board_valid 82 (v0, log) v r2 hgood hsearch

/-- Claim C1 witness: on the completed diagonal grid `gsol`, `solve` returns
the decoded board, and that board is a valid solved diagonal Sudoku. -/
theorem C1_solved_boards_valid_w :
    boxes.length = 81 ∧ unitlist.length = 29 ∧ BoardSolvedValid (decodeB gsol) :=
  C1_solved_boards_valid gsol [] (SR.board (decodeB gsol), []) (decodeB gsol)
    (by decide) gsol_run rfl

/-- Claim C2 (refuted as stated): an exhausted top-level search does **not**
return the contradiction sentinel.  The `for` loop of `search` (lines
168–173) has no `return` after it, so exhausting the candidates falls off
the function and yields Python `None`; a propagation contradiction yields
Python `False` (line 162) — two distinguishable values.  On the all-`"12"`
board every branch is refuted and `search` returns `None`; on a directly
contradictory board it returns `False`. -/
theorem C2_exhaustion_returns_none :
    (∀ (f : SSt → SR × Log) (r : Board) (s : String) (log : Log),
        tryValues f r s [] log = (SR.pyNone, log)) ∧
    (search (v12, [])).1 = SR.pyNone ∧
    (search (vconf, [])).1 = SR.pyFalse ∧
    SR.pyNone ≠ SR.pyFalse := by
  refine ⟨tryValues_nil, ?_, vconf_false, fun h => SR.noConfusion h⟩
  show v12run.1 = SR.pyNone
  exact v12run_facts.1

/-- Claim C3: the propagation loop signals failure on an emptied cell — a
pass producing an empty cell makes `reduceFuel` return the `False` sentinel
at once — `reduce_puzzle` always terminates (never exhausts its fuel), and a
board it returns has no empty candidate set. -/
theorem C3_reduce_fail_on_empty :
    (∀ (n : Nat) (st : SSt), hasEmpty (stepSt st).1 = true →
        reduceFuel (n + 1) st = (RRes.rfalse, (stepSt st).2)) ∧
    (∀ st : SSt, (reduce_puzzle st).1 ≠ RRes.rfuel) ∧
    (∀ (st : SSt) (r : Board) (lg : Log),
        reduce_puzzle st = (RRes.vals r, lg) → ∀ b ∈ boxes, r b ≠ []) := by
  refine ⟨?_, reduce_puzzle_no_rfuel, ?_⟩
  · intro n st he
    rw [reduceFuel_succ, if_pos he]
  · intro st r lg h
    exact hasEmpty_false_iff.mp (reduce_vals_basic h).2

/-- Claim C3 witness: the stalling board `v12` — `reduce_puzzle` returns it,
and its cells are nonempty. -/
theorem C3_reduce_fail_on_empty_w : v12 "A1" ≠ [] :=
  C3_reduce_fail_on_empty.2.2 (v12, []) v12 [] v12red_eq "A1" (by decide)

/-- Claim C4 (refuted as stated): the centre cell `E5` lies on **both**
diagonals: it has 5 containing units (not at most 4) and 32 peers (not at
most 22). -/
theorem C4_cell_counts_cex :
    "E5" ∈ boxes ∧ (units "E5").length = 5 ∧ (peers "E5").length = 32 ∧
    ¬ (units "E5").length ≤ 4 ∧ ¬ (peers "E5").length ≤ 22 := by decide

/-- Claim C4 amended: each cell lies in exactly `3 + d` units and has exactly
`20 + 6 · d` peers, where `d ≤ 2` is the number of diagonals through the
cell (so 20, 26 or 32 peers; `E5` is on both diagonals). -/
theorem C4_cell_counts_amended :
    ∀ s ∈ boxes, (units s).length = 3 + diagCount s ∧
      (peers s).length = 20 + 6 * diagCount s ∧ diagCount s ≤ 2 := by decide

/-- Claim C4 witness: the ordinary cell `B3` (no diagonal): 3 units, 20
peers. -/
theorem C4_cell_counts_w :
    (units "B3").length = 3 + diagCount "B3" ∧
    (peers "B3").length = 20 + 6 * diagCount "B3" ∧ diagCount "B3" ≤ 2 :=
  C4_cell_counts_amended "B3" (by decide)

/-- Claim C5 (refuted as stated): the forced search-branch write is a
singleton-producing mutation that is **never** logged.  On the all-`"12"`
board the top level of `search` branches on `A1` (the minimum pair), forcing
`A1` from `"12"` to the singleton `"1"` — the board at that moment is
`branchB` — yet no snapshot in the entire run's log equals `branchB`: the
branch writes the dictionary directly (line 170) instead of calling
`assign_value`. -/
theorem C5_branch_not_logged_cex :
    reduce_puzzle (v12, []) = (RRes.vals v12, []) ∧
    allSingleton v12 = false ∧
    minChoice v12 = (2, "A1") ∧
    v12 "A1" = ['1', '2'] ∧
    forced v12 "A1" '1' = branchB ∧
    branchB "A1" = ['1'] ∧ v12 "A1" ≠ ['1'] ∧
    search (v12, []) = tryValues (searchFuel 81) v12 "A1" ['1', '2'] [] ∧
    (v12run.2.all (fun e => !(boardEq e branchB))) = true := by
  refine ⟨v12red_eq, by decide, by decide, rfl, rfl, rfl, by decide, ?_,
    v12run_facts.2.1⟩
  show searchFuel (81 + 1) (v12, []) = _
  rw [searchFuel_eq_vals v12red_eq,
    if_neg (by show ¬ allSingleton v12 = true; decide)]
  exact rfl

/-- Claim C5 amended: the logging contract of `assign_value` — a no-op write
returns the state unchanged (nothing logged), a changing singleton write
appends exactly one snapshot of the just-updated board, a changing
non-singleton write appends nothing — while the forced branch board of
`search` is built without touching the log, which throughout the search only
ever grows by appends. -/
theorem C5_logging_amended :
    (∀ (st : SSt) (box : String) (value : List Char),
        st.1 box = value → assign_value st box value = st) ∧
    (∀ (st : SSt) (box : String) (value : List Char),
        st.1 box ≠ value → value.length = 1 →
        assign_value st box value =
          (fun b => if b = box then value else st.1 b,
            st.2 ++ [fun b => if b = box then value else st.1 b])) ∧
    (∀ (st : SSt) (box : String) (value : List Char),
        st.1 box ≠ value → value.length ≠ 1 →
        assign_value st box value =
          (fun b => if b = box then value else st.1 b, st.2)) ∧
    (∀ (r : Board) (s : String) (c : Char) (log : Log),
        (forced r s c, log).2 = log) ∧
    (∀ (n : Nat) (st : SSt), logLE st.2 (searchFuel n st).2) := by
  refine ⟨?_, ?_, ?_, fun _ _ _ _ => rfl, searchFuel_logLE⟩
  · intro st box value h
    unfold assign_value
    rw [if_pos h]
  · intro st box value h h1
    unfold assign_value
    rw [if_neg h]
    show (if value.length = 1
      then (fun b => if b = box then value else st.1 b,
        st.2 ++ [fun b => if b = box then value else st.1 b])
      else (fun b => if b = box then value else st.1 b, st.2)) = _
    rw [if_pos h1]
  · intro st box value h h1
    unfold assign_value
    rw [if_neg h]
    show (if value.length = 1
      then (fun b => if b = box then value else st.1 b,
        st.2 ++ [fun b => if b = box then value else st.1 b])
      else (fun b => if b = box then value else st.1 b, st.2)) = _
    rw [if_neg h1]

/-- Claim C5 witness: a no-op write on the all-`"12"` board changes nothing
and logs nothing. -/
theorem C5_logging_amended_w :
    assign_value (v12, []) "A1" ['1', '2'] = (v12, []) :=
  C5_logging_amended.1 (v12, []) "A1" ['1', '2'] rfl

/-- Claim C6: the search recursion cannot exhaust fuel exceeding the number
of unsolved cells — each recursive call strictly decreases that number, which
is at most 81 — so `search` (fuel 82) always terminates with one of the three
Python outcomes; the decoded all-dots puzzle has exactly 81 unsolved cells,
so this bound covers the empty puzzle. -/
theorem C6_search_terminates :
    (∀ (n : Nat) (st : SSt), unsolvedCount st.1 < n →
        (searchFuel n st).1 ≠ SR.fuelOut) ∧
    (∀ st : SSt, (search st).1 ≠ SR.fuelOut) ∧
    unsolvedCount (decodeB dots81) = 81 := by
  exact ⟨searchFuel_no_fuelOut, search_no_fuelOut, by decide⟩

/-- Claim C6 witness: the all-dots puzzle's search does not run out of fuel. -/
theorem C6_search_terminates_w :
    (search (decodeB dots81, [])).1 ≠ SR.fuelOut :=
  C6_search_terminates.2.1 (decodeB dots81, [])

/-- Claim C7 (refuted as stated): `reduce_puzzle` is not idempotent on its
own output.  On the board `wC7` it stalls and returns `wC7board`; running it
again on `wC7board` returns a strictly different board.  The stall test
compares only the count of solved cells, so a pass that shrinks candidate
sets without solving a cell (here: a naked pair created behind the sweep
position) does not keep the loop running. -/
theorem C7_idempotence_cex :
    (reduce_puzzle (wC7, [])).1 = RRes.vals wC7board ∧
    (reduce_puzzle (wC7board, [])).1 = RRes.vals wC7board2 ∧
    boardEq wC7board2 wC7board = false :=
  ⟨wC7_facts.1, wC7_facts.2.1, wC7_facts.2.2⟩

/-- Claim C7 amended: `reduce_puzzle` is the identity exactly on the true
fixpoints of a pass: if one `eliminate`/`naked_twins`/`only_choice` pass
leaves the state unchanged and no cell is empty, `reduce_puzzle` returns the
board and log unchanged. -/
theorem C7_idempotent_on_fixpoints :
    ∀ st : SSt, stepSt st = st → hasEmpty st.1 = false →
      reduce_puzzle st = (RRes.vals st.1, st.2) := by
  intro st hfix hne
  show reduceFuel (sumLen st.1 + 1) st = _
  rw [reduceFuel_succ, hfix,
    if_neg (by rw [hne]; exact Bool.false_ne_true),
    if_pos (beq_self_eq_true _)]

/-- Claim C7 witness: the all-`"12"` board is a pass fixpoint, and
`reduce_puzzle` returns it unchanged. -/
theorem C7_idempotent_on_fixpoints_w :
    reduce_puzzle (v12, []) = (RRes.vals v12, []) :=
  C7_idempotent_on_fixpoints (v12, []) v12_step (by decide)

/-- Claim C8: when `search` branches (propagation returned an unsolved
board), the chosen cell has at least two candidates and its pair
`(count, name)` is minimal — minimum candidate count, ties broken by the
lexicographic order on cell names, which is how Python's `min` compares the
tuples; the digits tried are exactly that cell's candidate list, in
ascending order; and the first branch whose recursive call returns a board
is returned as the result. -/
theorem C8_branching_order :
    ∀ (st : SSt) (r : Board) (lg : Log) (n : Nat),
      reduce_puzzle st = (RRes.vals r, lg) → allSingleton r = false →
      Good st.1 →
      ((minChoice r).2 ∈ boxes ∧ 1 < (r (minChoice r).2).length ∧
        (r (minChoice r).2).length = (minChoice r).1) ∧
      (∀ t ∈ boxes, 1 < (r t).length →
        ¬ pairLt ((r t).length, t) (minChoice r)) ∧
      (r (minChoice r).2).Pairwise (fun a b => a.toNat < b.toNat) ∧
      searchFuel (n + 1) st =
        tryValues (searchFuel n) r (minChoice r).2 (r (minChoice r).2) lg ∧
      (∀ (f : SSt → SR × Log) (s : String) (c : Char) (cs : List Char)
          (log log2 : Log) (b : Board),
          f (forced r s c, log) = (SR.board b, log2) →
          tryValues f r s (c :: cs) log = (SR.board b, log2)) := by
  intro st r lg n hred hns hg
  have hemp : hasEmpty r = false := (reduce_vals_basic hred).2
  have hcne : candsOf r ≠ [] := candsOf_ne_nil hemp hns
  rcases minChoice_spec r hcne with ⟨⟨hmem, hlen⟩, hmin⟩
  rcases mem_candsOf.mp hmem with ⟨hmb, hmlt⟩
  refine ⟨⟨hmb, hmlt, hlen⟩, ?_, ?_, ?_, ?_⟩
  · intro t ht hlt
    exact hmin t (mem_candsOf.mpr ⟨ht, hlt⟩)
  · have hsub : List.Sublist (r (minChoice r).2) cols :=
      List.Sublist.trans ((reduce_vals_basic hred).1 (minChoice r).2)
        (hg (minChoice r).2)
    exact cols_sorted.sublist hsub
  · rw [searchFuel_eq_vals hred,
      if_neg (by rw [hns]; exact Bool.false_ne_true)]
  · intro f s c cs log log2 b h
    exact tryValues_cons_board h

/-- Claim C8 witness, on the all-`"12"` board: the branch cell is the
lexicographic minimum `A1`, its candidates `"12"` are tried in ascending
order, and the branch equation holds at fuel 82. -/
theorem C8_branching_order_w :
    ((minChoice v12).2 ∈ boxes ∧ 1 < (v12 (minChoice v12).2).length ∧
      (v12 (minChoice v12).2).length = (minChoice v12).1) ∧
    (∀ t ∈ boxes, 1 < (v12 t).length →
      ¬ pairLt ((v12 t).length, t) (minChoice v12)) ∧
    (v12 (minChoice v12).2).Pairwise (fun a b => a.toNat < b.toNat) ∧
    searchFuel 82 (v12, []) =
      tryValues (searchFuel 81) v12 (minChoice v12).2 (v12 (minChoice v12).2)
        [] ∧
    (∀ (f : SSt → SR × Log) (s : String) (c : Char) (cs : List Char)
        (log log2 : Log) (b : Board),
        f (forced v12 s c, log) = (SR.board b, log2) →
        tryValues f v12 s (c :: cs) log = (SR.board b, log2)) :=
  C8_branching_order (v12, []) v12 [] 81 v12red_eq (by decide)
    (by intro x; show List.Sublist ['1', '2'] cols; decide)

/-- Claim C9: decoding fails exactly on grid strings whose length is not 81,
`solve` fails on exactly these inputs (the decode failure needs no
propagation: `solve`'s outcome on them is `none` whatever the log), and an
81-character grid always decodes — the `i`-th cell gets the full candidate
list for `'.'` and the singleton of the `i`-th character otherwise. -/
theorem C9_decode_contract :
    (∀ g : String, grid_values g = none ↔ g.length ≠ 81) ∧
    (∀ (g : String) (log : Log), solve g log = none ↔ g.length ≠ 81) ∧
    (∀ (g : String) (v : Board), grid_values g = some v →
      ∀ i, i < 81 →
        v (boxes.getD i "") =
          if g.data.getD i ' ' = '.' then cols else [g.data.getD i ' ']) := by
  refine ⟨fun g => grid_values_none_iff, ?_,
    fun g v h => grid_values_decode h⟩
  intro g log
  unfold solve
  cases hgv : grid_values g with
  | none =>
    rw [Option.map_none']
    exact ⟨fun _ => grid_values_none_iff.mp hgv, fun _ => rfl⟩
  | some v =>
    rw [Option.map_some']
    constructor
    · intro h
      exact Option.noConfusion h
    · intro h
      have hn := grid_values_none_iff.mpr h
      rw [hn] at hgv
      exact Option.noConfusion hgv

/-- Claim C9 witness: the 80-dot grid fails to decode; on the solved grid
`gsol` the first cell (`A1`, character `'2'`) decodes to the singleton. -/
theorem C9_decode_contract_w :
    grid_values dots80 = none ∧
    decodeB gsol (boxes.getD 0 "") =
      (if gsol.data.getD 0 ' ' = '.' then cols else [gsol.data.getD 0 ' ']) :=
  ⟨(C9_decode_contract.1 dots80).mpr (by decide),
    C9_decode_contract.2.2 gsol (decodeB gsol) rfl 0 (by decide)⟩

/-- Claim C10 (refuted as stated): the log is the **class attribute**
`assignments` (line 8), shared by every instance and never cleared by
`solve`: a second `solve` call starts with the snapshots of the first and
its final log still contains them.  (The embedding threads the attribute's
content as the explicit `log` argument of `solve`.) -/
theorem C10_log_shared_cex :
    solve g10 [] = some g10run1 ∧
    g10run1.2.length = 1 ∧
    solve g10 g10run1.2 = some g10run2 ∧
    g10run2.2.length = 2 ∧
    logPrefixB g10run1.2 g10run2.2 = true :=
  ⟨g10_facts.1, g10_facts.2.2.1, g10_facts.2.2.2.1, g10_facts.2.2.2.2.2.1,
    g10_facts.2.2.2.2.2.2⟩

/-- Claim C10 amended: `solve` never resets the log: the log content at call
time is an initial segment of the log at return — snapshots accumulate
across calls for the lifetime of the class attribute. -/
theorem C10_log_accumulates :
    ∀ (g : String) (log : Log) (r : SR × Log),
      solve g log = some r → logLE log r.2 := by
  intro g log r h
  rcases solve_some_inv h with ⟨v, _, hsearch⟩
  rw [← hsearch]
  exact searchFuel_logLE 82 (v, log)

/-- Claim C10 witness: on the solved grid `gsol` nothing is appended, and the
entry log (empty) is an initial segment of the exit log. -/
theorem C10_log_accumulates_w :
    logLE ([] : Log) (SR.board (decodeB gsol), ([] : Log)).2 :=
  C10_log_accumulates gsol [] (SR.board (decodeB gsol), []) gsol_run

end SudokuPy
